import Mathlib

/-!
Verification of the BVH serializer (`src/write.rs` of `bvh_anim`).

The source file provides the data types (`WriteOptions`, `IndentStyle`,
`LineTerminator`), the two output drivers (`write`, `write_to_string`) and the
iterator state (`WriteOptionsIterState`), but the body of `next_line` — the
line-production logic — is an unimplemented stub (`line.clear(); false`), and
the specification states that this logic "must be authored from the
specification".  The definitions below therefore embed the types and drivers
from the source, and model the line production (and the paired parser, which
is out of scope of the source file) from the specification's state machine in
section 4.3 and the format grammar in section 6.

Numeric values (offsets, frame values, frame time) are modelled as decimal
literal tokens (strings over digit characters, `.`, `-`, `+`, `e`, `E`):
the specification requires a "minimal round-trip-safe decimal representation",
so the serializer treats them as opaque tokens that are emitted verbatim.
-/

set_option maxHeartbeats 1000000

namespace BvhAnim

/-! ## Characters and tokens -/

/-- Whitespace characters: token separators and line-terminator characters. -/
def isWS (c : Char) : Bool := c = ' ' || c = '\t' || c = '\r' || c = '\n'

/-- A well-formed text token (joint name, channel tag): nonempty and free of
whitespace and line-terminator characters. -/
def goodToken (s : String) : Bool := !s.data.isEmpty && s.data.all (fun c => !isWS c)

/-- Characters allowed in a decimal numeric-literal token. -/
def numChars : List Char := ['0','1','2','3','4','5','6','7','8','9','.','-','+','e','E']

/-- A numeric-literal token (offset component, frame value, frame time). -/
def numToken (s : String) : Bool := !s.data.isEmpty && s.data.all (fun c => numChars.contains c)

/-- Decimal digit character for `m`. -/
def digitChar (m : Nat) : Char := Char.ofNat (48 + m)

/-- Digits (most significant first) of `n`, with explicit recursion fuel. -/
def natReprAux : Nat → Nat → List Char
  | 0, _ => []
  | fuel + 1, n => if n < 10 then [digitChar n] else natReprAux fuel (n / 10) ++ [digitChar (n % 10)]

/-- Decimal representation of a natural number (channel counts, frame count). -/
def natRepr (n : Nat) : String := String.mk (natReprAux (n + 1) n)

/-! ## `IndentStyle` (from the source) -/

/-- Specify indentation style to use when writing the `Bvh` joints.
From the source: `NoIndentation`, `Tabs`, or `Spaces(NonZeroUsize)`. -/
inductive IndentStyle where
  | NoIndentation : IndentStyle
  | Tabs : IndentStyle
  | Spaces : {n : Nat // 0 < n} → IndentStyle
deriving DecidableEq

/-- `IndentStyle::with_spaces(n)`: from the source,
`NonZeroUsize::new(n).map(IndentStyle::Spaces).unwrap_or(IndentStyle::NoIndentation)`. -/
def IndentStyle.with_spaces (n : Nat) : IndentStyle :=
  if h : 0 < n then IndentStyle.Spaces ⟨n, h⟩ else IndentStyle.NoIndentation

/-- The characters of one indentation unit.  From the source
(`prefix_chars`): no characters, one tab, or `n` spaces. -/
def IndentStyle.indent_chars : IndentStyle → List Char
  | .NoIndentation => List.replicate 0 '\x00'
  | .Tabs => List.replicate 1 '\t'
  | .Spaces n => List.replicate n.val ' '

/-! ## `LineTerminator` (from the source) -/

/-- Line terminator style, from the source: Unix (`"\n"`) or Windows (`"\r\n"`). -/
inductive LineTerminator where
  | Unix : LineTerminator
  | Windows : LineTerminator
deriving DecidableEq

/-- `LineTerminator::as_str`, from the source. -/
def LineTerminator.as_str : LineTerminator → String
  | .Unix => "\n"
  | .Windows => "\r\n"

/-- `LineTerminator::native()` on a non-Windows host (the verification target). -/
def LineTerminator.native : LineTerminator := LineTerminator.Unix

/-! ## `WriteOptions` value type (from the source) -/

/-- Formatting options for writing a `Bvh`, from the source. -/
structure WriteOptions where
  indent : IndentStyle
  line_terminator : LineTerminator
deriving DecidableEq

/-- `WriteOptions::new()`, from the source: default values (one tab, native terminator). -/
def WriteOptions.new : WriteOptions := ⟨IndentStyle.Tabs, LineTerminator.native⟩

/-- `WriteOptions::with_indent`, from the source: copy with `indent` replaced. -/
def WriteOptions.with_indent (o : WriteOptions) (indent : IndentStyle) : WriteOptions :=
  { o with indent := indent }

/-- `WriteOptions::with_line_terminator`, from the source: copy with
`line_terminator` replaced. -/
def WriteOptions.with_line_terminator (o : WriteOptions) (line_terminator : LineTerminator) :
    WriteOptions :=
  { o with line_terminator := line_terminator }

/-! ## The data model (spec section 3) -/

/-- Modelled from the spec: a `Joint` record of the external skeleton model —
name, nesting depth (root = 0), offset (three numeric tokens), ordered channel
tags, and the End-Site flag.  (The skeleton data structure is outside
`src/write.rs`.) -/
structure Joint where
  name : String
  depth : Nat
  offset : String × String × String
  channels : List String
  is_end_site : Bool
deriving DecidableEq

/-- Modelled from the spec: the Skeleton+Motion model consumed by the
serializer: joints in pre-order, frame time, frames (each an ordered list of
numeric value tokens) and the frame count. -/
structure Bvh where
  joints : List Joint
  frame_time : String
  frames : List (List String)
  frame_count : Nat
deriving DecidableEq

/-- Per-joint well-formedness: an End Site has no name and no channels; any
other joint has a token name; offsets are numeric tokens; channels are tokens. -/
def Joint.fields_ok (j : Joint) : Bool :=
  (if j.is_end_site then j.name == "" && j.channels.isEmpty else goodToken j.name) &&
  numToken j.offset.1 && numToken j.offset.2.1 && numToken j.offset.2.2 &&
  j.channels.all goodToken

/-- Pre-order chain conditions along consecutive joints: every joint after the
first has depth at least 1 (a single root) and at most one more than its
predecessor (valid pre-order bracketing). -/
def chain_ok : List Joint → Bool
  | [] => true
  | j :: rest =>
    j.fields_ok &&
    (match rest with
     | [] => true
     | j' :: _ => decide (1 ≤ j'.depth) && decide (j'.depth ≤ j.depth + 1)) &&
    chain_ok rest

/-- Total number of channels across all joints. -/
def channel_total (js : List Joint) : Nat := (js.map (fun j => j.channels.length)).sum

/-- Modelled from the spec (section 3 invariants): a valid model has a
non-empty pre-order joint list whose first joint is the root (depth 0, not an
End Site), valid chain conditions, a numeric frame time, frames of numeric
tokens whose width is the channel total, and a frame count equal to the
number of frames. -/
def Bvh.valid (b : Bvh) : Bool :=
  (match b.joints with
   | [] => false
   | j :: _ => j.depth == 0 && !j.is_end_site) &&
  chain_ok b.joints &&
  numToken b.frame_time &&
  b.frames.all (fun f => f.all numToken && f.length == channel_total b.joints) &&
  b.frame_count == b.frames.length

/-! ## Line production (modelled from the spec, section 4.3)

Each produced line is described first as a pair of a nesting depth and a list
of tokens; rendering a pair produces the concrete text line. -/

/-- Depth of the first joint of a list (0 when empty: after the last joint the
producer unwinds to depth 0). -/
def head_depth : List Joint → Nat
  | [] => 0
  | j :: _ => j.depth

/-- Modelled from the spec: the tokens of a joint's header line — `ROOT <name>`
for the root (depth 0), `End Site` for an End Site, `JOINT <name>` otherwise. -/
def header_tokens (j : Joint) : List String :=
  if j.depth == 0 then ["ROOT", j.name]
  else if j.is_end_site then ["End", "Site"]
  else ["JOINT", j.name]

/-- Modelled from the spec: a joint's own lines — header at its depth, an
opening brace at its depth, `OFFSET x y z` at depth+1, and (unless it is an
End Site) `CHANNELS n <chan...>` at depth+1. -/
def joint_own_tls (j : Joint) : List (Nat × List String) :=
  [(j.depth, header_tokens j),
   (j.depth, ["\x7b"]),
   (j.depth + 1, ["OFFSET", j.offset.1, j.offset.2.1, j.offset.2.2])] ++
  (if j.is_end_site then []
   else [(j.depth + 1, ["CHANNELS", natRepr j.channels.length] ++ j.channels)])

/-- Modelled from the spec: the closing-brace lines emitted between a joint at
depth `dcurr` and the next joint at depth `dnext` (0 when no joint remains):
one `}` line for each block being closed, most deeply nested first, each at
the depth of the block it closes. -/
def close_tls (dcurr dnext : Nat) : List (Nat × List String) :=
  (List.range (dcurr + 1 - dnext)).map (fun k => (dcurr - k, ["\x7d"]))

/-- All lines attributed to one joint: its own lines followed by the closing
braces emitted before moving to the rest of the joint list. -/
def bone_tls (j : Joint) (rest : List Joint) : List (Nat × List String) :=
  joint_own_tls j ++ close_tls j.depth (head_depth rest)

/-- The hierarchy lines of a pre-order joint list (without the `HIERARCHY`
preamble). -/
def hier_tls : List Joint → List (Nat × List String)
  | [] => []
  | j :: rest => bone_tls j rest ++ hier_tls rest

/-- Modelled from the spec: the motion lines — `MOTION`, `Frames: <count>`,
`Frame Time: <time>`, then one line of space-separated values per frame. -/
def motion_tls (b : Bvh) : List (Nat × List String) :=
  (0, ["MOTION"]) :: (0, ["Frames:", natRepr b.frame_count]) ::
  (0, ["Frame", "Time:", b.frame_time]) :: b.frames.map (fun f => (0, f))

/-- The hierarchy lines including the one-time `HIERARCHY` preamble. -/
def hier_tls_all (b : Bvh) : List (Nat × List String) :=
  match b.joints with
  | [] => []
  | _ :: _ => (0, ["HIERARCHY"]) :: hier_tls b.joints

/-- All depth/token lines of the serialized document. -/
def all_tls (b : Bvh) : List (Nat × List String) := hier_tls_all b ++ motion_tls b

/-- Join tokens with single spaces. -/
def unwords : List String → String
  | [] => ""
  | [t] => t
  | t :: ts => t ++ " " ++ unwords ts

/-- The indentation prefix at nesting depth `d`: the indentation unit repeated
`d` times. -/
def indentAt (style : IndentStyle) (d : Nat) : String :=
  String.mk (List.flatten (List.replicate d style.indent_chars))

/-- Render a depth/token line as text (without terminator). -/
def mkLine (style : IndentStyle) (p : Nat × List String) : String :=
  indentAt style p.1 ++ unwords p.2

/-- Render a depth/token line as a full produced line, terminated with the
configured line terminator. -/
def renderT (opts : WriteOptions) (p : Nat × List String) : String :=
  mkLine opts.indent p ++ opts.line_terminator.as_str

/-- The document's lines without terminators. -/
def all_lines (opts : WriteOptions) (b : Bvh) : List String :=
  (all_tls b).map (mkLine opts.indent)

/-- The document's produced lines (each terminated). -/
def all_linesT (opts : WriteOptions) (b : Bvh) : List String :=
  (all_tls b).map (renderT opts)

/-- The produced hierarchy lines (terminated). -/
def hier_linesT (opts : WriteOptions) (b : Bvh) : List String :=
  (hier_tls_all b).map (renderT opts)

/-- The produced motion lines (terminated). -/
def motion_linesT (opts : WriteOptions) (b : Bvh) : List String :=
  (motion_tls b).map (renderT opts)

/-! ## The iterator state machine (`WriteOptionsIterState` from the source,
line production modelled from the spec) -/

/-- Iterator state, from the source: writing bones (joint cursor, plus a
position inside the current joint's line group, standing for the spec's
pending-close-brace information), or writing motion (cursor into the motion
lines; the three preamble lines precede the frame lines). -/
inductive WriteOptionsIterState where
  | WriteBones : Nat → Nat → WriteOptionsIterState
  | WriteMotion : Nat → WriteOptionsIterState
deriving DecidableEq

/-- The per-joint groups of produced lines. -/
def bone_groupsT (opts : WriteOptions) : List Joint → List (List String)
  | [] => []
  | j :: rest => (bone_tls j rest).map (renderT opts) :: bone_groupsT opts rest

/-- The per-joint groups, with the `HIERARCHY` preamble attached to the first
joint's group (it is emitted on the first pull, before any joint line). -/
def groupsT (opts : WriteOptions) (b : Bvh) : List (List String) :=
  match b.joints with
  | [] => []
  | j :: rest =>
    (renderT opts (0, ["HIERARCHY"]) :: (bone_tls j rest).map (renderT opts)) ::
      bone_groupsT opts rest

/-- One pull in the motion phase: emit the line at the cursor, or signal
exhaustion (leaving the state unchanged and the line buffer cleared). -/
def motion_step (opts : WriteOptions) (b : Bvh) (f : Nat) :
    Bool × String × WriteOptionsIterState :=
  match (motion_linesT opts b)[f]? with
  | some l => (true, l, .WriteMotion (f + 1))
  | none => (false, "", .WriteMotion f)

/-- `WriteOptions::next_line`, modelled from the spec (the source body is a
stub): clear the line buffer, then produce the next document line and advance
the state, or report exhaustion.  Returns (more-lines?, line buffer, state). -/
def next_line (opts : WriteOptions) (b : Bvh) (st : WriteOptionsIterState) :
    Bool × String × WriteOptionsIterState :=
  match st with
  | .WriteBones i k =>
    match (groupsT opts b)[i]? with
    | some g =>
      match g[k]? with
      | some l =>
        (true, l,
          if k + 1 < g.length then .WriteBones i (k + 1)
          else if i + 1 < (groupsT opts b).length then .WriteBones (i + 1) 0
          else .WriteMotion 0)
      | none => (false, "", .WriteBones i k)
    | none => motion_step opts b 0
  | .WriteMotion f => motion_step opts b f

/-- Concatenation of a list of strings. -/
def strConcat : List String → String
  | [] => ""
  | l :: ls => l ++ strConcat ls

/-- The driver loop of `write_to_string`, from the source: repeatedly pull
`next_line` and append the line buffer, until exhaustion.  The fuel argument
bounds the number of iterations; `write_to_string` supplies enough fuel for
the loop to run to exhaustion. -/
def drainAux (opts : WriteOptions) (b : Bvh) : Nat → WriteOptionsIterState → String → String
  | 0, _, acc => acc
  | fuel + 1, st, acc =>
    match next_line opts b st with
    | (true, l, st') => drainAux opts b fuel st' (acc ++ l)
    | (false, _, _) => acc

/-- `WriteOptions::write_to_string`, from the source: drain the line producer
into one output string, starting from `WriteBones { curr_bone: 0 }`. -/
def WriteOptions.write_to_string (opts : WriteOptions) (b : Bvh) : String :=
  drainAux opts b ((all_linesT opts b).length + 1) (.WriteBones 0 0) ""

/-! ## The sink driver (`WriteOptions::write` from the source) -/

/-- A byte-oriented sink: for each call index and payload, the number of bytes
accepted (`none` = the write call fails), and whether the final flush
succeeds. -/
structure Sink where
  write_ret : Nat → List Char → Option Nat
  flush_ok : Bool

/-- Outcome of a `write` run: success flag, the payloads passed to the sink's
write calls in order, and the number of flush calls performed. -/
structure WriteResult where
  ok : Bool
  calls : List (List Char)
  flushes : Nat
deriving DecidableEq

/-- The driver loop of `write`, from the source: pull each line, pass its
bytes to the sink, accumulate the byte counts, and fail immediately when the
cumulative count accepted differs from the cumulative count produced (short
write) or the sink's write call fails; flush once after exhaustion. -/
def writeAux (opts : WriteOptions) (b : Bvh) (sink : Sink) :
    Nat → WriteOptionsIterState → Nat → Nat → Nat → List (List Char) → WriteResult
  | 0, _, _, _, _, calls => ⟨false, calls, 0⟩
  | fuel + 1, st, idx, written, slen, calls =>
    match next_line opts b st with
    | (true, l, st') =>
      match sink.write_ret idx l.data with
      | none => ⟨false, calls ++ [l.data], 0⟩
      | some n =>
        if written + n = slen + l.data.length then
          writeAux opts b sink fuel st' (idx + 1) (written + n) (slen + l.data.length)
            (calls ++ [l.data])
        else ⟨false, calls ++ [l.data], 0⟩
    | (false, _, _) => ⟨sink.flush_ok, calls, 1⟩

/-- `WriteOptions::write`, from the source: drive the producer to exhaustion,
writing each line to the sink, then flush once. -/
def WriteOptions.write (opts : WriteOptions) (b : Bvh) (sink : Sink) : WriteResult :=
  writeAux opts b sink ((all_linesT opts b).length + 1) (.WriteBones 0 0) 0 0 0 []

/-! ## The paired parser (modelled from the spec, sections 1, 6 and 8)

The spec's round-trip property refers to "the paired parser", an external
collaborator whose code is not part of `src/write.rs`.  Modelled from the
spec: split the text into lines (accepting both terminators), tokenize each
line on whitespace (so any indentation is ignored), and rebuild the pre-order
joint list by reversing the bracket-balanced unwinding. -/

/-- Finish a line accumulated in reverse: drop one trailing carriage return
(Windows terminator) and restore order. -/
def finishLine (acc : List Char) : List Char :=
  (match acc with
   | c :: t => if c = '\r' then t else c :: t
   | [] => []).reverse

/-- Modelled from the spec: split a character stream into lines at `'\n'`,
dropping a `'\r'` immediately before each break. -/
def splitLinesAux : List Char → List Char → List (List Char)
  | [], acc => if acc.isEmpty then [] else [finishLine acc]
  | c :: cs, acc =>
    if c = '\n' then finishLine acc :: splitLinesAux cs []
    else splitLinesAux cs (c :: acc)

/-- Tokenize a line: maximal runs of non-whitespace characters. -/
def wordsAux : List Char → List Char → List String
  | [], acc => if acc.isEmpty then [] else [String.mk acc.reverse]
  | c :: cs, acc =>
    if isWS c then
      if acc.isEmpty then wordsAux cs [] else String.mk acc.reverse :: wordsAux cs []
    else wordsAux cs (c :: acc)

/-- Tokens of a line of characters. -/
def words (l : List Char) : List String := wordsAux l []

/-- Count the leading closing-brace lines of a token-line list. -/
def takeBraces : List (List String) → Nat × List (List String)
  | [] => (0, [])
  | hd :: rest =>
    if hd = ["\x7d"] then
      ((takeBraces rest).1 + 1, (takeBraces rest).2)
    else (0, hd :: rest)

/-- Modelled from the spec: parse a joint header at depth `d` — `ROOT <name>`
at depth 0, `End Site` or `JOINT <name>` below.  Returns name and End-Site
flag. -/
def parse_header (d : Nat) (ts : List String) : Option (String × Bool) :=
  if d == 0 then
    match ts with
    | ["ROOT", nm] => some (nm, false)
    | _ => none
  else
    match ts with
    | ["End", "Site"] => some ("", true)
    | ["JOINT", nm] => some (nm, false)
    | _ => none

/-- Modelled from the spec: parse an optional `CHANNELS` line — an End Site
has none, any other joint has exactly one. -/
def parse_channels (es : Bool) (tls1 : List (List String)) :
    Option (List String × List (List String)) :=
  if es then some ([], tls1)
  else
    match tls1 with
    | ("CHANNELS" :: _cnt :: chs) :: tls2 => some (chs, tls2)
    | _ => none

/-- Modelled from the spec: parse the flat joint sequence from token lines.
For each joint: header, `{`, `OFFSET`, optional `CHANNELS`; then count the
closing braces `c`: the hierarchy is complete when `c = d + 1` (all enclosing
blocks closed), otherwise the next joint sits at depth `d + 1 - c`. -/
def parseBones : Nat → Nat → List (List String) → Option (List Joint × List (List String))
  | 0, _, _ => none
  | fuel + 1, d, tls =>
    match tls with
    | hdr :: br :: off :: tls1 =>
      match parse_header d hdr with
      | none => none
      | some (nm, es) =>
        if br == ["\x7b"] then
          match off with
          | ["OFFSET", x, y, z] =>
            match parse_channels es tls1 with
            | none => none
            | some (chs, tls2) =>
              let j : Joint := ⟨nm, d, (x, y, z), chs, es⟩
              let tb := takeBraces tls2
              if tb.1 == d + 1 then some ([j], tb.2)
              else if tb.1 ≤ d then
                match parseBones fuel (d + 1 - tb.1) tb.2 with
                | some (js, rest) => some (j :: js, rest)
                | none => none
              else none
          | _ => none
        else none
    | _ => none

/-- Modelled from the spec: parse the `MOTION` block — the three preamble
lines, then one frame of values per remaining line.  The frame count is
recovered from the number of frame lines. -/
def parse_motion (js : List Joint) : List (List String) → Option Bvh
  | mline :: fline :: ftline :: frameLines =>
    if mline == ["MOTION"] then
      match fline, ftline with
      | ["Frames:", _cnt], ["Frame", "Time:", ft] =>
        some ⟨js, ft, frameLines, frameLines.length⟩
      | _, _ => none
    else none
  | _ => none

/-- Modelled from the spec: parse the joint blocks and then the motion block
from the token lines after the `HIERARCHY` preamble. -/
def parse_body (rest : List (List String)) : Option Bvh :=
  match parseBones rest.length 0 rest with
  | some (js, mlines) => parse_motion js mlines
  | none => none

/-- Modelled from the spec: the paired BVH parser.  Splits the text into
lines (accepting both terminators), tokenizes each line on whitespace, and
parses the `HIERARCHY` preamble, the joint blocks and the motion block. -/
def parse (s : String) : Option Bvh :=
  match (splitLinesAux s.data []).map words with
  | hline :: rest => if hline == ["HIERARCHY"] then parse_body rest else none
  | [] => none

/-! ## Iterator bookkeeping used by the proofs -/

/-- The lines still to be produced from a given iterator state. -/
def rem (opts : WriteOptions) (b : Bvh) : WriteOptionsIterState → List String
  | .WriteBones i k =>
    List.drop k (((groupsT opts b)[i]?).getD []) ++
      (List.drop (i + 1) (groupsT opts b)).flatten ++ motion_linesT opts b
  | .WriteMotion f => List.drop f (motion_linesT opts b)

/-- States reachable by the iterator: the in-group position is in range. -/
def okState (opts : WriteOptions) (b : Bvh) : WriteOptionsIterState → Prop
  | .WriteBones i k => ∀ g, (groupsT opts b)[i]? = some g → k < g.length
  | .WriteMotion _ => True

/-! ## Predicates and measures used by the verification -/

/-- Every token of every line of a token-line list is well formed. -/
def tls_good (tls : List (Nat × List String)) : Prop :=
  ∀ p ∈ tls, ∀ t ∈ p.2, goodToken t = true

/-- A produced line whose content (tokens) is exactly the opening brace. -/
def is_open_line (s : String) : Bool := words s.data == ["\x7b"]

/-- A produced line whose content (tokens) is exactly the closing brace. -/
def is_close_line (s : String) : Bool := words s.data == ["\x7d"]

/-- Run the bracket balance over token lines: an opening-brace line increments
the balance, a closing-brace line decrements it and fails at balance 0; a
successful run returns the final balance. -/
def run_bal : Nat → List (Nat × List String) → Option Nat
  | bal, [] => some bal
  | bal, p :: tls =>
    if p.2 = ["\x7d"] then
      match bal with
      | 0 => none
      | bal' + 1 => run_bal bal' tls
    else run_bal (bal + (if p.2 = ["\x7b"] then 1 else 0)) tls

/-- The sink accepts every byte of every line, starting at call index `idx`. -/
def allFull (sink : Sink) : Nat → List String → Bool
  | _, [] => true
  | idx, l :: ls =>
    (sink.write_ret idx l.data == some l.data.length) && allFull sink (idx + 1) ls

/-! ## Concrete models used by witnesses and counterexamples -/

/-- The spec's concrete scenario: a single root joint `Hips` with six channels
and one all-zero frame. -/
def hipsBvh : Bvh :=
  ⟨[⟨"Hips", 0, ("0", "0", "0"),
     ["Xposition", "Yposition", "Zposition", "Zrotation", "Xrotation", "Yrotation"], false⟩],
   "0.033333", [["0", "0", "0", "0", "0", "0"]], 1⟩

/-- Tabs + Unix options of the concrete scenario. -/
def hipsOpts : WriteOptions := ⟨IndentStyle.Tabs, LineTerminator.Unix⟩

/-- A two-joint model (root `A` with one child `B`), used to test line
counts. -/
def twoJointBvh : Bvh :=
  ⟨[⟨"A", 0, ("0", "0", "0"), ["Xrotation"], false⟩,
    ⟨"B", 1, ("1", "1", "1"), ["Yrotation"], false⟩],
   "0.1", [], 0⟩

/-- A sink that accepts every byte and flushes successfully. -/
def fullSink : Sink := ⟨fun _ bs => some bs.length, true⟩

end BvhAnim


namespace BvhAnim

/-! ## Basic structural lemmas -/

theorem bone_tls_ne_nil (j : Joint) (rest : List Joint) : bone_tls j rest ≠ [] := by
  simp [bone_tls, joint_own_tls]

theorem motion_linesT_ne_nil (opts : WriteOptions) (b : Bvh) : motion_linesT opts b ≠ [] := by
  simp [motion_linesT, motion_tls]

theorem bone_groupsT_mem_ne_nil (opts : WriteOptions) :
    ∀ (js : List Joint), ∀ g ∈ bone_groupsT opts js, g ≠ []
  | [], g, hg => by simp [bone_groupsT] at hg
  | j :: rest, g, hg => by
    simp only [bone_groupsT, List.mem_cons] at hg
    rcases hg with h | h
    · subst h
      simpa using bone_tls_ne_nil j rest
    · exact bone_groupsT_mem_ne_nil opts rest g h

theorem groupsT_mem_ne_nil (opts : WriteOptions) (b : Bvh) :
    ∀ g ∈ groupsT opts b, g ≠ [] := by
  intro g hg
  unfold groupsT at hg
  cases hj : b.joints with
  | nil => simp [hj] at hg
  | cons j rest =>
    rw [hj] at hg
    rcases List.mem_cons.mp hg with h | h
    · subst h; simp
    · exact bone_groupsT_mem_ne_nil opts rest g h

theorem bone_groupsT_flatten (opts : WriteOptions) :
    ∀ js : List Joint, (bone_groupsT opts js).flatten = (hier_tls js).map (renderT opts)
  | [] => by simp [bone_groupsT, hier_tls]
  | j :: rest => by
    simp [bone_groupsT, hier_tls, List.map_append, bone_groupsT_flatten opts rest]

theorem all_linesT_split (opts : WriteOptions) (b : Bvh) :
    all_linesT opts b = hier_linesT opts b ++ motion_linesT opts b := by
  simp [all_linesT, all_tls, hier_linesT, motion_linesT, List.map_append]

/-! ## Step lemmas for the line producer -/

theorem next_line_done (opts : WriteOptions) (b : Bvh) (st : WriteOptionsIterState)
    (hok : okState opts b st) (hrem : rem opts b st = []) :
    next_line opts b st = (false, "", st) := by
  cases st with
  | WriteBones i k =>
    rcases hg : (groupsT opts b)[i]? with _ | g
    · exfalso
      simp only [rem, hg, Option.getD_none, List.drop_nil, List.nil_append] at hrem
      rcases List.append_eq_nil.mp hrem with ⟨-, h2⟩
      exact motion_linesT_ne_nil opts b h2
    · have hk : k < g.length := hok g hg
      exfalso
      simp only [rem, hg, Option.getD_some] at hrem
      rcases List.append_eq_nil.mp hrem with ⟨h1, -⟩
      rcases List.append_eq_nil.mp h1 with ⟨h1, -⟩
      have := List.drop_eq_nil_iff.mp h1
      omega
  | WriteMotion f =>
    have hf : (motion_linesT opts b).length ≤ f := by
      simp only [rem] at hrem
      exact List.drop_eq_nil_iff.mp hrem
    simp [next_line, motion_step, List.getElem?_eq_none hf]

theorem next_line_step (opts : WriteOptions) (b : Bvh) (st : WriteOptionsIterState)
    (hok : okState opts b st) (l : String) (ls : List String)
    (hrem : rem opts b st = l :: ls) :
    ∃ st', next_line opts b st = (true, l, st') ∧ okState opts b st' ∧
      rem opts b st' = ls := by
  cases st with
  | WriteBones i k =>
    rcases hg : (groupsT opts b)[i]? with _ | g
    · -- cursor past the bone groups: the producer serves the motion lines
      have hrem0 : rem opts b (.WriteBones i k) = motion_linesT opts b := by
        have hlen : (groupsT opts b).length ≤ i := by
          by_contra hc
          rw [List.getElem?_eq_getElem (by omega)] at hg
          exact Option.noConfusion hg
        have h1 : List.drop (i + 1) (groupsT opts b) = [] :=
          List.drop_eq_nil_of_le (by omega)
        simp [rem, hg, h1]
      have hm : motion_linesT opts b = l :: ls := by rw [← hrem0, hrem]
      refine ⟨.WriteMotion 1, ?_, trivial, ?_⟩
      · have h0 : (motion_linesT opts b)[0]? = some l := by rw [hm]; simp
        simp [next_line, hg, motion_step, h0]
      · show List.drop 1 (motion_linesT opts b) = ls
        rw [hm]
        rfl
    · have hk : k < g.length := hok g hg
      have hgk : g[k]? = some g[k] := List.getElem?_eq_getElem hk
      have hdropk : g.drop k = g[k] :: g.drop (k + 1) := List.drop_eq_getElem_cons hk
      have hremc : rem opts b (.WriteBones i k) =
          g[k] :: (g.drop (k + 1) ++ (List.drop (i + 1) (groupsT opts b)).flatten ++
            motion_linesT opts b) := by
        simp only [rem, hg, Option.getD_some]
        rw [hdropk]
        simp only [List.cons_append]
      rw [hremc] at hrem
      injection hrem with hl hls
      subst hl
      by_cases hk1 : k + 1 < g.length
      · refine ⟨.WriteBones i (k + 1), ?_, ?_, ?_⟩
        · simp [next_line, hg, hgk, hk1]
        · intro g' hg'
          rw [hg] at hg'
          injection hg' with h
          subst h
          exact hk1
        · rw [← hls]
          simp [rem, hg]
      · have hdrop1 : g.drop (k + 1) = [] := List.drop_eq_nil_of_le (by omega)
        by_cases hi1 : i + 1 < (groupsT opts b).length
        · have hgi1 : (groupsT opts b)[i + 1]? = some (groupsT opts b)[i + 1] :=
            List.getElem?_eq_getElem hi1
          have hdropi : List.drop (i + 1) (groupsT opts b) =
              (groupsT opts b)[i + 1] :: List.drop (i + 2) (groupsT opts b) :=
            List.drop_eq_getElem_cons hi1
          refine ⟨.WriteBones (i + 1) 0, ?_, ?_, ?_⟩
          · simp [next_line, hg, hgk, hk1, hi1]
          · intro g' hg'
            rw [hgi1] at hg'
            injection hg' with h
            subst h
            exact List.length_pos.mpr
              (groupsT_mem_ne_nil opts b _ (List.getElem?_mem hgi1))
          · have hls2 : ls = (groupsT opts b)[i + 1] ++
                ((List.drop (i + 2) (groupsT opts b)).flatten ++ motion_linesT opts b) := by
              rw [← hls, hdrop1, hdropi]
              rw [List.nil_append, List.flatten_cons, List.append_assoc]
            rw [hls2]
            simp only [rem, hgi1, Option.getD_some, List.drop_zero]
            rw [List.append_assoc]
        · have hdropi : List.drop (i + 1) (groupsT opts b) = [] :=
            List.drop_eq_nil_of_le (by omega)
          refine ⟨.WriteMotion 0, ?_, trivial, ?_⟩
          · simp [next_line, hg, hgk, hk1, hi1]
          · rw [← hls, hdrop1, hdropi]
            simp [rem]
  | WriteMotion f =>
    have hf : f < (motion_linesT opts b).length := by
      by_contra hc
      rw [rem, List.drop_eq_nil_of_le (by omega)] at hrem
      exact List.noConfusion hrem
    have hdrop : (motion_linesT opts b).drop f =
        (motion_linesT opts b)[f] :: (motion_linesT opts b).drop (f + 1) :=
      List.drop_eq_getElem_cons hf
    have hremc : rem opts b (.WriteMotion f) =
        (motion_linesT opts b)[f] :: (motion_linesT opts b).drop (f + 1) := by
      rw [rem, hdrop]
    rw [hremc] at hrem
    injection hrem with hl hls
    refine ⟨.WriteMotion (f + 1), ?_, trivial, ?_⟩
    · simp [next_line, motion_step, List.getElem?_eq_getElem hf, hl]
    · rw [rem, ← hls]

/-! ## The drained document -/

theorem strConcat_cons (l : String) (ls : List String) :
    strConcat (l :: ls) = l ++ strConcat ls := rfl

theorem drainAux_spec (opts : WriteOptions) (b : Bvh) :
    ∀ (fuel : Nat) (st : WriteOptionsIterState) (acc : String),
      okState opts b st → (rem opts b st).length ≤ fuel →
      drainAux opts b fuel st acc = acc ++ strConcat (rem opts b st)
  | 0, st, acc, hok, hlen => by
    have h : rem opts b st = [] := List.eq_nil_of_length_eq_zero (by omega)
    rw [drainAux, h]
    simp [strConcat]
  | fuel + 1, st, acc, hok, hlen => by
    rcases hrem : rem opts b st with _ | ⟨l, ls⟩
    · rw [drainAux, next_line_done opts b st hok hrem]
      simp [strConcat]
    · obtain ⟨st', hnl, hok', hrem'⟩ := next_line_step opts b st hok l ls hrem
      rw [drainAux, hnl]
      have hlen' : (rem opts b st').length ≤ fuel := by
        rw [hrem']
        rw [hrem] at hlen
        simp at hlen
        omega
      show drainAux opts b fuel st' (acc ++ l) = acc ++ strConcat (l :: ls)
      rw [drainAux_spec opts b fuel st' (acc ++ l) hok' hlen', hrem',
        strConcat_cons, String.append_assoc]

theorem okState_init (opts : WriteOptions) (b : Bvh) :
    okState opts b (.WriteBones 0 0) := by
  intro g hg
  exact List.length_pos.mpr (groupsT_mem_ne_nil opts b g (List.getElem?_mem hg))

theorem rem_init (opts : WriteOptions) (b : Bvh) :
    rem opts b (.WriteBones 0 0) = all_linesT opts b := by
  cases hj : b.joints with
  | nil =>
    have hgr : groupsT opts b = [] := by unfold groupsT; rw [hj]
    simp [rem, hgr, all_linesT, all_tls, hier_tls_all, hj, motion_linesT]
  | cons j rest =>
    have hgr : groupsT opts b =
        (renderT opts (0, ["HIERARCHY"]) :: (bone_tls j rest).map (renderT opts)) ::
          bone_groupsT opts rest := by
      unfold groupsT; rw [hj]
    rw [all_linesT_split opts b]
    unfold hier_linesT hier_tls_all
    rw [hj]
    simp [rem, hgr, bone_groupsT_flatten, hier_tls, List.map_append]

theorem write_to_string_eq (opts : WriteOptions) (b : Bvh) :
    opts.write_to_string b = strConcat (all_linesT opts b) := by
  unfold WriteOptions.write_to_string
  rw [drainAux_spec opts b _ _ _ (okState_init opts b) (by rw [rem_init]; omega),
    rem_init, String.empty_append]

/-! ## Claims C1, C5, C8, C9 -/

/-- C1: for the model with the single root joint `Hips` (offset `0 0 0`, the
six channels, no children), one frame of six zero values and frame time
`0.033333`, `write_to_string` with Tabs indentation and the Unix line
terminator returns exactly the expected document, every line terminated by
`"\n"`. -/
theorem claim_C1 :
    hipsOpts.write_to_string hipsBvh =
      "HIERARCHY\nROOT Hips\n\x7b\n\tOFFSET 0 0 0\n\tCHANNELS 6 Xposition Yposition Zposition Zrotation Xrotation Yrotation\n\x7d\nMOTION\nFrames: 1\nFrame Time: 0.033333\n0 0 0 0 0 0\n" := by
  decide

/-- C5: once `next_line` reports no more lines for a state, it has left the
state unchanged and the line buffer empty, and a subsequent call on the
resulting state reports no more lines again with the same (unchanged) state
and empty buffer. -/
theorem claim_C5 (opts : WriteOptions) (b : Bvh) (st : WriteOptionsIterState)
    (h : (next_line opts b st).1 = false) :
    next_line opts b st = (false, "", st) ∧
    next_line opts b (next_line opts b st).2.2 = (false, "", st) := by
  have hfalse : next_line opts b st = (false, "", st) := by
    cases st with
    | WriteBones i k =>
      rcases hg : (groupsT opts b)[i]? with _ | g
      · exfalso
        have h0 : (motion_linesT opts b)[0]? =
            some ((motion_linesT opts b).head (motion_linesT_ne_nil opts b)) := by
          rw [List.getElem?_eq_getElem (List.length_pos.mpr (motion_linesT_ne_nil opts b))]
          rw [List.getElem_zero]
        rw [next_line] at h
        simp only [hg] at h
        rw [motion_step, h0] at h
        exact Bool.noConfusion h
      · rcases hk : g[k]? with _ | l
        · simp [next_line, hg, hk]
        · exfalso
          rw [next_line] at h
          simp only [hg, hk] at h
          exact Bool.noConfusion h
    | WriteMotion f =>
      rcases hf : (motion_linesT opts b)[f]? with _ | l
      · simp [next_line, motion_step, hf]
      · exfalso
        rw [next_line, motion_step, hf] at h
        exact Bool.noConfusion h
  refine ⟨hfalse, ?_⟩
  rw [hfalse]
  exact hfalse

/-- Witness for C5 at a concrete exhausted state of the concrete model. -/
theorem claim_C5_witness :
    next_line hipsOpts hipsBvh (.WriteMotion 99) = (false, "", .WriteMotion 99) ∧
    next_line hipsOpts hipsBvh
      (next_line hipsOpts hipsBvh (.WriteMotion 99)).2.2 = (false, "", .WriteMotion 99) :=
  claim_C5 hipsOpts hipsBvh (.WriteMotion 99) (by decide)

/-- C8: `with_spaces n` returns `NoIndentation` when `n = 0` and `Spaces n`
when `n ≥ 1`; the `Spaces` variant never holds a zero width. -/
theorem claim_C8 (n : Nat) :
    (n = 0 → IndentStyle.with_spaces n = IndentStyle.NoIndentation) ∧
    (∀ h : 0 < n, IndentStyle.with_spaces n = IndentStyle.Spaces ⟨n, h⟩) ∧
    (∀ p, IndentStyle.with_spaces n = IndentStyle.Spaces p → 0 < p.val) := by
  refine ⟨fun h => by simp [IndentStyle.with_spaces, h],
    fun h => by simp [IndentStyle.with_spaces, h],
    fun p _ => p.2⟩

/-- Witness for C8 at `n = 0` and `n = 5`. -/
theorem claim_C8_witness :
    IndentStyle.with_spaces 0 = IndentStyle.NoIndentation ∧
    IndentStyle.with_spaces 5 = IndentStyle.Spaces ⟨5, by decide⟩ :=
  ⟨(claim_C8 0).1 rfl, (claim_C8 5).2.1 (by decide)⟩

/-- C9: `with_indent` returns a copy whose `indent` is the new style and whose
`line_terminator` is unchanged; `with_line_terminator` returns a copy whose
`line_terminator` is the new terminator and whose `indent` is unchanged; the
receiver is a value, so the original is unaffected (value semantics). -/
theorem claim_C9 (o : WriteOptions) (s : IndentStyle) (t : LineTerminator) :
    (o.with_indent s).indent = s ∧
    (o.with_indent s).line_terminator = o.line_terminator ∧
    (o.with_line_terminator t).line_terminator = t ∧
    (o.with_line_terminator t).indent = o.indent :=
  ⟨rfl, rfl, rfl, rfl⟩

/-! ## Tokenization lemmas -/

theorem goodToken_ne_nil (t : String) (h : goodToken t = true) : t.data ≠ [] := by
  rcases t with ⟨l⟩
  simp [goodToken] at h
  simpa using h.1

theorem goodToken_chars (t : String) (h : goodToken t = true) :
    ∀ c ∈ t.data, isWS c = false := by
  intro c hc
  rcases t with ⟨l⟩
  simp [goodToken, List.all_eq_true] at h
  simpa using h.2 c hc

theorem strmk_data (s : String) : String.mk s.data = s := rfl

theorem wordsAux_ws (ws : List Char) (hws : ∀ c ∈ ws, isWS c = true) :
    ∀ acc : List Char,
      wordsAux ws acc = if acc.isEmpty then [] else [String.mk acc.reverse] := by
  induction ws with
  | nil => intro acc; rw [wordsAux]
  | cons c cs ih =>
    intro acc
    have hc : isWS c = true := hws c (by simp)
    have hcs : ∀ x ∈ cs, isWS x = true := fun x hx => hws x (by simp [hx])
    rw [wordsAux]
    simp only [hc, if_true]
    by_cases hacc : acc.isEmpty
    · simp only [hacc, if_true]
      rw [ih hcs []]
      rfl
    · simp only [hacc, if_false]
      rw [ih hcs []]
      rfl

theorem wordsAux_skip (ws : List Char) (hws : ∀ c ∈ ws, isWS c = true) :
    ∀ rest : List Char, wordsAux (ws ++ rest) [] = wordsAux rest [] := by
  induction ws with
  | nil => intro rest; rw [List.nil_append]
  | cons c cs ih =>
    intro rest
    have hc : isWS c = true := hws c (by simp)
    rw [List.cons_append, wordsAux]
    simp only [hc, if_true, List.isEmpty_nil]
    exact ih (fun x hx => hws x (by simp [hx])) rest

theorem wordsAux_token : ∀ (tk : List Char), (∀ c ∈ tk, isWS c = false) →
    ∀ (rest acc : List Char), wordsAux (tk ++ rest) acc = wordsAux rest (tk.reverse ++ acc)
  | [], _, rest, acc => by simp
  | c :: cs, htk, rest, acc => by
    have hc : isWS c = false := htk c (by simp)
    rw [List.cons_append, wordsAux]
    simp only [hc, Bool.false_eq_true, if_false]
    rw [wordsAux_token cs (fun x hx => htk x (by simp [hx])) rest (c :: acc)]
    simp

theorem unwords_token_spec (ts : List String) (h : ∀ t ∈ ts, goodToken t = true)
    (tail : List Char) (htail : ∀ c ∈ tail, isWS c = true) :
    wordsAux ((unwords ts).data ++ tail) [] = ts := by
  induction ts with
  | nil =>
    show wordsAux tail [] = []
    rw [wordsAux_ws tail htail []]
    rfl
  | cons t ts' ih =>
    cases ts' with
    | nil =>
      have htg : goodToken t = true := h t (by simp)
      rw [show unwords [t] = t from rfl,
        wordsAux_token t.data (goodToken_chars t htg) tail []]
      rw [wordsAux_ws tail htail]
      have : (t.data.reverse ++ []).isEmpty = false := by
        simp [List.isEmpty_iff, goodToken_ne_nil t htg]
      rw [this]
      simp [strmk_data]
    | cons t' ts'' =>
      have htg : goodToken t = true := h t (by simp)
      have hdata : (unwords (t :: t' :: ts'')).data ++ tail =
          t.data ++ (' ' :: ((unwords (t' :: ts'')).data ++ tail)) := by
        rw [show unwords (t :: t' :: ts'') = t ++ " " ++ unwords (t' :: ts'') from rfl]
        rw [String.data_append, String.data_append]
        simp
      rw [hdata, wordsAux_token t.data (goodToken_chars t htg)]
      rw [wordsAux]
      have hne : (t.data.reverse ++ ([] : List Char)).isEmpty = false := by
        simp [List.isEmpty_iff, goodToken_ne_nil t htg]
      rw [ih (fun x hx => h x (by simp [hx]))]
      simp [isWS, hne, strmk_data]
      exact goodToken_ne_nil t htg

theorem indent_chars_ws (style : IndentStyle) :
    ∀ c ∈ style.indent_chars, isWS c = true := by
  intro c hc
  cases style with
  | NoIndentation => simp [IndentStyle.indent_chars] at hc
  | Tabs =>
    simp [IndentStyle.indent_chars] at hc
    simp [hc, isWS]
  | Spaces n =>
    have := List.eq_of_mem_replicate hc
    simp [this, isWS]

theorem indentAt_data (style : IndentStyle) (d : Nat) :
    (indentAt style d).data = (List.replicate d style.indent_chars).flatten := rfl

theorem indentAt_ws (style : IndentStyle) (d : Nat) :
    ∀ c ∈ (indentAt style d).data, isWS c = true := by
  intro c hc
  rw [indentAt_data] at hc
  obtain ⟨l, hl, hcl⟩ := List.mem_flatten.mp hc
  exact indent_chars_ws style c (List.eq_of_mem_replicate hl ▸ hcl)

theorem as_str_ws (t : LineTerminator) : ∀ c ∈ t.as_str.data, isWS c = true := by
  cases t <;> decide

theorem words_mkLine_tail (style : IndentStyle) (p : Nat × List String)
    (h : ∀ t ∈ p.2, goodToken t = true) (tail : List Char)
    (htail : ∀ c ∈ tail, isWS c = true) :
    wordsAux ((mkLine style p).data ++ tail) [] = p.2 := by
  have hdata : (mkLine style p).data ++ tail =
      (indentAt style p.1).data ++ ((unwords p.2).data ++ tail) := by
    rw [mkLine, String.data_append, List.append_assoc]
  rw [hdata, wordsAux_skip _ (indentAt_ws style p.1)]
  exact unwords_token_spec p.2 h tail htail

theorem words_mkLine (style : IndentStyle) (p : Nat × List String)
    (h : ∀ t ∈ p.2, goodToken t = true) :
    words ((mkLine style p).data) = p.2 := by
  have := words_mkLine_tail style p h [] (by simp)
  rw [List.append_nil] at this
  exact this

theorem words_renderT (opts : WriteOptions) (p : Nat × List String)
    (h : ∀ t ∈ p.2, goodToken t = true) :
    words ((renderT opts p).data) = p.2 := by
  rw [words, renderT, String.data_append]
  exact words_mkLine_tail opts.indent p h _ (as_str_ws opts.line_terminator)

/-! ## Token goodness of the produced lines -/

theorem numToken_good (t : String) (h : numToken t = true) : goodToken t = true := by
  rcases t with ⟨l⟩
  simp only [numToken, Bool.and_eq_true, List.all_eq_true] at h
  simp only [goodToken, Bool.and_eq_true, List.all_eq_true]
  refine ⟨h.1, fun c hc => ?_⟩
  have hmem := h.2 c hc
  have : c ∈ numChars := List.mem_of_elem_eq_true hmem
  revert this
  have : ∀ x ∈ numChars, isWS x = false := by decide
  intro hx
  simp [this c hx]

theorem digitChar_not_ws : ∀ m, m < 10 → isWS (digitChar m) = false := by decide

theorem natReprAux_chars : ∀ (fuel n : Nat), ∀ c ∈ natReprAux fuel n,
    ∃ m, m < 10 ∧ c = digitChar m
  | 0, n, c, hc => by simp [natReprAux] at hc
  | fuel + 1, n, c, hc => by
    rw [natReprAux] at hc
    by_cases h10 : n < 10
    · rw [if_pos h10] at hc
      simp at hc
      exact ⟨n, h10, hc⟩
    · rw [if_neg h10] at hc
      rcases List.mem_append.mp hc with hc | hc
      · exact natReprAux_chars fuel (n / 10) c hc
      · simp at hc
        exact ⟨n % 10, Nat.mod_lt _ (by omega), hc⟩

theorem natReprAux_ne_nil (fuel n : Nat) : natReprAux (fuel + 1) n ≠ [] := by
  rw [natReprAux]
  by_cases h10 : n < 10
  · simp [h10]
  · simp [h10]

theorem natRepr_good (n : Nat) : goodToken (natRepr n) = true := by
  simp only [natRepr, goodToken, Bool.and_eq_true, List.all_eq_true]
  constructor
  · simpa [List.isEmpty_iff] using natReprAux_ne_nil n n
  · intro c hc
    obtain ⟨m, hm, hcm⟩ := natReprAux_chars (n + 1) n c hc
    simp [hcm, digitChar_not_ws m hm]

theorem fields_ok_parts (j : Joint) (hj : j.fields_ok = true) :
    (j.is_end_site = true → j.name = "" ∧ j.channels = []) ∧
    (j.is_end_site = false → goodToken j.name = true) ∧
    numToken j.offset.1 = true ∧ numToken j.offset.2.1 = true ∧
    numToken j.offset.2.2 = true ∧ (∀ t ∈ j.channels, goodToken t = true) := by
  simp only [Joint.fields_ok, Bool.and_eq_true, List.all_eq_true] at hj
  obtain ⟨⟨⟨⟨h1, h2⟩, h3⟩, h4⟩, h5⟩ := hj
  cases hes : j.is_end_site with
  | true =>
    rw [if_pos hes] at h1
    simp only [Bool.and_eq_true, beq_iff_eq, List.isEmpty_iff] at h1
    exact ⟨fun _ => h1, fun hc => Bool.noConfusion hc, h2, h3, h4, h5⟩
  | false =>
    rw [if_neg (by simp [hes])] at h1
    exact ⟨fun hc => Bool.noConfusion hc, fun _ => h1, h2, h3, h4, h5⟩

theorem header_tokens_good (j : Joint) (hj : j.fields_ok = true)
    (hd : j.depth = 0 → j.is_end_site = false) :
    ∀ t ∈ header_tokens j, goodToken t = true := by
  obtain ⟨_, hname, _⟩ := fields_ok_parts j hj
  intro t ht
  rw [header_tokens] at ht
  by_cases h0 : j.depth = 0
  · rw [if_pos (by simp [h0])] at ht
    rcases List.mem_cons.mp ht with h | h
    · subst h; decide
    · simp at h
      subst h
      exact hname (hd h0)
  · rw [if_neg (by simp [h0])] at ht
    cases hes : j.is_end_site with
    | true =>
      rw [if_pos (by simp [hes])] at ht
      rcases List.mem_cons.mp ht with h | h
      · subst h; decide
      · simp at h; subst h; decide
    | false =>
      rw [if_neg (by simp [hes])] at ht
      rcases List.mem_cons.mp ht with h | h
      · subst h; decide
      · simp at h
        subst h
        exact hname hes

theorem joint_own_tls_good (j : Joint) (hj : j.fields_ok = true)
    (hd : j.depth = 0 → j.is_end_site = false) :
    tls_good (joint_own_tls j) := by
  obtain ⟨-, -, ho1, ho2, ho3, hch⟩ := fields_ok_parts j hj
  intro p hp t ht
  rw [joint_own_tls] at hp
  rcases List.mem_append.mp hp with hp | hp
  · simp only [List.mem_cons, List.not_mem_nil, or_false] at hp
    rcases hp with rfl | rfl | rfl
    · exact header_tokens_good j hj hd t ht
    · simp at ht
      subst ht; decide
    · simp at ht
      rcases ht with h | h | h | h <;> subst h
      · decide
      · exact numToken_good _ ho1
      · exact numToken_good _ ho2
      · exact numToken_good _ ho3
  · cases hes : j.is_end_site with
    | true => rw [if_pos (by simp [hes])] at hp; simp at hp
    | false =>
      rw [if_neg (by simp [hes])] at hp
      simp at hp
      subst hp
      simp at ht
      rcases ht with h | h | h
      · subst h; decide
      · subst h; exact natRepr_good _
      · exact hch t h

theorem close_tls_good (dcurr dnext : Nat) : tls_good (close_tls dcurr dnext) := by
  intro p hp t ht
  rw [close_tls] at hp
  obtain ⟨k, -, hk⟩ := List.mem_map.mp hp
  rw [← hk] at ht
  simp at ht
  subst ht
  decide

theorem hier_tls_good : ∀ js : List Joint, chain_ok js = true →
    (∀ j, js.head? = some j → (j.depth = 0 → j.is_end_site = false)) →
    tls_good (hier_tls js)
  | [], _, _ => by intro p hp; simp [hier_tls] at hp
  | j :: rest, hch, hh => by
    simp only [chain_ok, Bool.and_eq_true] at hch
    obtain ⟨⟨hj, hnext⟩, hrest⟩ := hch
    intro p hp t ht
    rw [hier_tls] at hp
    rcases List.mem_append.mp hp with hp | hp
    · rw [bone_tls] at hp
      rcases List.mem_append.mp hp with hp | hp
      · exact joint_own_tls_good j hj (hh j rfl) p hp t ht
      · exact close_tls_good _ _ p hp t ht
    · refine hier_tls_good rest hrest ?_ p hp t ht
      intro j' hj' h0
      exfalso
      cases rest with
      | nil => simp at hj'
      | cons a l =>
        simp at hj'
        subst hj'
        simp only [Bool.and_eq_true, decide_eq_true_eq] at hnext
        omega

theorem valid_parts (b : Bvh) (h : b.valid = true) :
    b.joints ≠ [] ∧
    (∀ j, b.joints.head? = some j → j.depth = 0 ∧ j.is_end_site = false) ∧
    chain_ok b.joints = true ∧ numToken b.frame_time = true ∧
    (∀ f ∈ b.frames, (∀ v ∈ f, numToken v = true) ∧ f.length = channel_total b.joints) ∧
    b.frame_count = b.frames.length := by
  rw [Bvh.valid] at h
  cases hj : b.joints with
  | nil => rw [hj] at h; simp at h
  | cons j0 rest =>
    rw [hj] at h
    simp only [Bool.and_eq_true, beq_iff_eq, Bool.not_eq_true', List.all_eq_true,
      decide_eq_true_eq] at h
    obtain ⟨⟨⟨⟨⟨hd0, hes0⟩, hch⟩, hft⟩, hfr⟩, hfc⟩ := h
    refine ⟨by simp, ?_, hch, hft, ?_, hfc⟩
    · intro j hj'
      simp at hj'
      subst hj'
      exact ⟨hd0, hes0⟩
    · intro f hf
      obtain ⟨h1, h2⟩ := hfr f hf
      exact ⟨h1, h2⟩

theorem all_tls_good (b : Bvh) (hb : b.valid = true) : tls_good (all_tls b) := by
  obtain ⟨hne, hhead, hch, hft, hfr, -⟩ := valid_parts b hb
  intro p hp t ht
  rw [all_tls] at hp
  rcases List.mem_append.mp hp with hp | hp
  · rw [hier_tls_all] at hp
    cases hj : b.joints with
    | nil => exact absurd hj hne
    | cons j0 rest =>
      rw [hj] at hp
      rcases List.mem_cons.mp hp with h | h
      · subst h
        simp at ht
        subst ht
        decide
      · refine hier_tls_good b.joints hch (fun j hj' h0 => (hhead j hj').2) p ?_ t ht
        rw [hj]
        exact h
  · rw [motion_tls] at hp
    rcases List.mem_cons.mp hp with h | hp
    · subst h; simp at ht; subst ht; decide
    rcases List.mem_cons.mp hp with h | hp
    · subst h
      simp at ht
      rcases ht with h | h
      · subst h; decide
      · subst h; exact natRepr_good _
    rcases List.mem_cons.mp hp with h | hp
    · subst h
      simp at ht
      rcases ht with h | h | h
      · subst h; decide
      · subst h; decide
      · subst h; exact numToken_good _ hft
    · obtain ⟨f, hf, hfp⟩ := List.mem_map.mp hp
      rw [← hfp] at ht
      simp at ht
      exact numToken_good t ((hfr f hf).1 t ht)

/-! ## Line splitting lemmas -/

theorem strConcat_data : ∀ ls : List String, (strConcat ls).data = (ls.map String.data).flatten
  | [] => rfl
  | l :: ls => by
    rw [strConcat_cons, String.data_append l (strConcat ls), strConcat_data ls]
    simp

theorem finishLine_cr (x : List Char) : finishLine ('\r' :: x) = x.reverse := by
  rw [finishLine, if_pos rfl]

theorem finishLine_no_cr (acc : List Char) (h : ∀ c ∈ acc, c ≠ '\r') :
    finishLine acc = acc.reverse := by
  cases acc with
  | nil => rfl
  | cons c t =>
    rw [finishLine, if_neg (h c (by simp))]

theorem splitLinesAux_push (l : List Char) (h : ∀ c ∈ l, c ≠ '\n') :
    ∀ (cs acc : List Char),
      splitLinesAux (l ++ cs) acc = splitLinesAux cs (l.reverse ++ acc) := by
  induction l with
  | nil => intro cs acc; simp
  | cons c t ih =>
    intro cs acc
    have hc : c ≠ '\n' := h c (by simp)
    rw [List.cons_append, splitLinesAux, if_neg hc]
    rw [ih (fun x hx => h x (by simp [hx])) cs (c :: acc)]
    simp

theorem no_ws_ne_nlcr (c : Char) (h : isWS c = false) : c ≠ '\n' ∧ c ≠ '\r' := by
  constructor <;> rintro rfl <;> simp [isWS] at h

theorem unwords_chars : ∀ (ts : List String), ∀ c ∈ (unwords ts).data,
    (∃ t ∈ ts, c ∈ t.data) ∨ c = ' '
  | [], c, hc => by simp [unwords] at hc
  | [t], c, hc => by
    rw [show unwords [t] = t from rfl] at hc
    exact Or.inl ⟨t, by simp, hc⟩
  | t :: t' :: ts'', c, hc => by
    rw [show unwords (t :: t' :: ts'') = t ++ " " ++ unwords (t' :: ts'') from rfl,
      String.data_append, String.data_append] at hc
    rcases List.mem_append.mp hc with hc | hc
    · rcases List.mem_append.mp hc with hc | hc
      · exact Or.inl ⟨t, by simp, hc⟩
      · simp at hc
        exact Or.inr hc
    · rcases unwords_chars (t' :: ts'') c hc with ⟨u, hu, hcu⟩ | hsp
      · exact Or.inl ⟨u, by simp [hu], hcu⟩
      · exact Or.inr hsp

theorem indent_chars_cases (style : IndentStyle) :
    ∀ c ∈ style.indent_chars, c = '\t' ∨ c = ' ' := by
  intro c hc
  cases style with
  | NoIndentation => simp [IndentStyle.indent_chars] at hc
  | Tabs =>
    simp [IndentStyle.indent_chars] at hc
    exact Or.inl hc
  | Spaces n => exact Or.inr (List.eq_of_mem_replicate hc)

theorem mkLine_no_nlcr (style : IndentStyle) (p : Nat × List String)
    (h : ∀ t ∈ p.2, goodToken t = true) :
    ∀ c ∈ (mkLine style p).data, c ≠ '\n' ∧ c ≠ '\r' := by
  intro c hc
  rw [mkLine, String.data_append] at hc
  rcases List.mem_append.mp hc with hc | hc
  · rw [indentAt_data] at hc
    obtain ⟨l, hl, hcl⟩ := List.mem_flatten.mp hc
    rcases indent_chars_cases style c (List.eq_of_mem_replicate hl ▸ hcl) with rfl | rfl <;>
      exact ⟨by decide, by decide⟩
  · rcases unwords_chars p.2 c hc with ⟨u, hu, hcu⟩ | rfl
    · exact no_ws_ne_nlcr c (goodToken_chars u (h u hu) c hcu)
    · exact ⟨by decide, by decide⟩

theorem splitLinesAux_doc (t : LineTerminator) :
    ∀ lines : List (List Char),
      (∀ l ∈ lines, ∀ c ∈ l, c ≠ '\n' ∧ c ≠ '\r') →
      splitLinesAux ((lines.map (fun l => l ++ t.as_str.data)).flatten) [] = lines
  | [], _ => by simp [splitLinesAux]
  | l :: ls, h => by
    have hl : ∀ c ∈ l, c ≠ '\n' ∧ c ≠ '\r' := h l (by simp)
    have hls : ∀ x ∈ ls, ∀ c ∈ x, c ≠ '\n' ∧ c ≠ '\r' := fun x hx => h x (by simp [hx])
    have hflat : ((l :: ls).map (fun x => x ++ t.as_str.data)).flatten =
        l ++ (t.as_str.data ++ (ls.map (fun x => x ++ t.as_str.data)).flatten) := by
      simp
    rw [hflat, splitLinesAux_push l (fun c hc => (hl c hc).1)]
    cases t with
    | Unix =>
      rw [show LineTerminator.Unix.as_str.data = ['\n'] from rfl, List.cons_append,
        splitLinesAux, if_pos rfl]
      rw [finishLine_no_cr (l.reverse ++ []) (by
        intro c hc
        simp at hc
        exact (hl c hc).2)]
      have hrec := splitLinesAux_doc LineTerminator.Unix ls hls
      rw [show LineTerminator.Unix.as_str.data = ['\n'] from rfl] at hrec
      rw [List.nil_append, hrec]
      simp
    | Windows =>
      rw [show LineTerminator.Windows.as_str.data = ['\r', '\n'] from rfl, List.cons_append,
        splitLinesAux, if_neg (by decide), List.cons_append, splitLinesAux, if_pos rfl,
        finishLine_cr]
      have hrec := splitLinesAux_doc LineTerminator.Windows ls hls
      rw [show LineTerminator.Windows.as_str.data = ['\r', '\n'] from rfl] at hrec
      rw [List.nil_append, hrec]
      simp

/-! ## From the document text back to token lines -/

theorem doc_token_lines (opts : WriteOptions) (b : Bvh) (hb : b.valid = true) :
    (splitLinesAux (opts.write_to_string b).data []).map words =
      (all_tls b).map (fun p => p.2) := by
  have hgood := all_tls_good b hb
  have hdata : (opts.write_to_string b).data =
      (((all_tls b).map (fun p => (mkLine opts.indent p).data)).map
        (fun l => l ++ opts.line_terminator.as_str.data)).flatten := by
    rw [write_to_string_eq, strConcat_data, all_linesT]
    rw [List.map_map, List.map_map]
    congr 1
  rw [hdata, splitLinesAux_doc opts.line_terminator _ (by
    intro l hl c hc
    obtain ⟨p, hp, hpl⟩ := List.mem_map.mp hl
    rw [← hpl] at hc
    exact mkLine_no_nlcr opts.indent p (hgood p hp) c hc)]
  rw [List.map_map]
  apply List.map_congr_left
  intro p hp
  exact words_mkLine opts.indent p (hgood p hp)

/-! ## The token-line view of the hierarchy -/

theorem joint_own_tls_tokens (j : Joint) :
    (joint_own_tls j).map (fun p => p.2) =
      header_tokens j :: ["\x7b"] ::
        ["OFFSET", j.offset.1, j.offset.2.1, j.offset.2.2] ::
        (if j.is_end_site then []
         else [["CHANNELS", natRepr j.channels.length] ++ j.channels]) := by
  cases hes : j.is_end_site <;> simp [joint_own_tls, hes]

theorem close_tls_tokens (dcurr dnext : Nat) :
    (close_tls dcurr dnext).map (fun p => p.2) =
      List.replicate (dcurr + 1 - dnext) ["\x7d"] := by
  rw [close_tls, List.map_map]
  simp [List.eq_replicate_iff]

theorem header_tokens_ne_brace (j : Joint) : header_tokens j ≠ ["\x7d"] := by
  rw [header_tokens]
  split
  · simp
  · split <;> simp

theorem hier_tls_tokens_head (j : Joint) (rest : List Joint) (tail : List (List String)) :
    ∀ hd, (((hier_tls (j :: rest)).map (fun p => p.2)) ++ tail).head? = some hd →
      hd = header_tokens j := by
  intro hd hhd
  rw [hier_tls, bone_tls, joint_own_tls] at hhd
  simp at hhd
  exact hhd.symm

/-! ## `takeBraces` -/

theorem takeBraces_not_brace (tls : List (List String))
    (h : ∀ hd, tls.head? = some hd → hd ≠ ["\x7d"]) : takeBraces tls = (0, tls) := by
  cases tls with
  | nil => rfl
  | cons hd tl =>
    have hne : hd ≠ ["\x7d"] := h hd rfl
    rw [takeBraces, if_neg hne]

theorem takeBraces_cons (rest : List (List String)) :
    takeBraces (["\x7d"] :: rest) = ((takeBraces rest).1 + 1, (takeBraces rest).2) := by
  rw [takeBraces, if_pos rfl]

theorem takeBraces_replicate (c : Nat) (rest : List (List String))
    (h : ∀ hd, rest.head? = some hd → hd ≠ ["\x7d"]) :
    takeBraces (List.replicate c ["\x7d"] ++ rest) = (c, rest) := by
  induction c with
  | zero => simpa using takeBraces_not_brace rest h
  | succ n ih =>
    rw [List.replicate_succ, List.cons_append, takeBraces_cons, ih]

/-! ## Round-trip of the hierarchy -/

theorem parse_header_of_header (j : Joint) (hd : j.depth = 0 → j.is_end_site = false) :
    parse_header j.depth (header_tokens j) =
      some (if j.is_end_site = true then "" else j.name, j.is_end_site) := by
  by_cases h0 : j.depth = 0
  · have hes : j.is_end_site = false := hd h0
    have hh : header_tokens j = ["ROOT", j.name] := by
      rw [header_tokens, if_pos (by simp [h0])]
    rw [hh, parse_header, if_pos (by simp [h0]), hes]
    rfl
  · cases hes : j.is_end_site with
    | true =>
      have hh : header_tokens j = ["End", "Site"] := by
        rw [header_tokens, if_neg (by simp [h0]), if_pos (by simp [hes])]
      rw [hh, parse_header, if_neg (by simp [h0])]
      rfl
    | false =>
      have hh : header_tokens j = ["JOINT", j.name] := by
        rw [header_tokens, if_neg (by simp [h0]), if_neg (by simp [hes])]
      rw [hh, parse_header, if_neg (by simp [h0])]
      rfl

theorem parse_channels_end (tls1 : List (List String)) :
    parse_channels true tls1 = some ([], tls1) := rfl

theorem parse_channels_chan (cnt : String) (chs : List String) (tls2 : List (List String)) :
    parse_channels false (("CHANNELS" :: cnt :: chs) :: tls2) = some (chs, tls2) := rfl

theorem parseBones_tail (f : Nat) (j jrec : Joint) (hj : jrec = j) (tl : List Joint)
    (rest : List (List String))
    (hnext : tl = [] ∨ ∃ j' tl', tl = j' :: tl' ∧ 1 ≤ j'.depth ∧ j'.depth ≤ j.depth + 1)
    (hrec : tl ≠ [] →
      parseBones f (head_depth tl) ((hier_tls tl).map (fun p => p.2) ++ rest) =
        some (tl, rest)) :
    (if (j.depth + 1 - head_depth tl) == j.depth + 1 then
       some ([jrec], (hier_tls tl).map (fun p => p.2) ++ rest)
     else if (j.depth + 1 - head_depth tl) ≤ j.depth then
       match parseBones f (j.depth + 1 - (j.depth + 1 - head_depth tl))
           ((hier_tls tl).map (fun p => p.2) ++ rest) with
       | some (js, r) => some (jrec :: js, r)
       | none => none
     else none) = some (j :: tl, rest) := by
  rw [hj]
  cases tl with
  | nil =>
    rw [if_pos (by simp [head_depth])]
    simp [hier_tls]
  | cons j' tl' =>
    have hb : 1 ≤ j'.depth ∧ j'.depth ≤ j.depth + 1 := by
      rcases hnext with h | ⟨a, b, hab, h1, h2⟩
      · exact List.noConfusion h
      · injection hab with hab1 hab2
        subst hab1
        exact ⟨h1, h2⟩
    have hdp : head_depth (j' :: tl') = j'.depth := rfl
    rw [hdp]
    rw [if_neg (by
      simp only [beq_iff_eq]
      omega)]
    rw [if_pos (by omega)]
    rw [show j.depth + 1 - (j.depth + 1 - j'.depth) = head_depth (j' :: tl') from by
      rw [hdp]; omega]
    rw [hrec (by simp)]

theorem parseBones_round :
    ∀ (js : List Joint) (fuel : Nat) (rest : List (List String)), js ≠ [] →
      chain_ok js = true →
      (∀ j ∈ js, j.depth = 0 → j.is_end_site = false) →
      js.length ≤ fuel →
      (∀ hd, rest.head? = some hd → hd ≠ ["\x7d"]) →
      parseBones fuel (head_depth js) ((hier_tls js).map (fun p => p.2) ++ rest) =
        some (js, rest)
  | [], _, _, hne, _, _, _, _ => absurd rfl hne
  | j :: tl, 0, rest, _, _, _, hlen, _ => by simp at hlen
  | j :: tl, f + 1, rest, _, hch, hroot, hlen, hrest => by
    simp only [chain_ok, Bool.and_eq_true] at hch
    obtain ⟨⟨hfj, hnext⟩, hchtl⟩ := hch
    obtain ⟨hesName, hname, ho1, ho2, ho3, hchans⟩ := fields_ok_parts j hfj
    have hhd : parse_header j.depth (header_tokens j) =
        some (if j.is_end_site = true then "" else j.name, j.is_end_site) :=
      parse_header_of_header j (hroot j (by simp))
    have hhead_tail : ∀ hd, ((hier_tls tl).map (fun p => p.2) ++ rest).head? = some hd →
        hd ≠ ["\x7d"] := by
      cases tl with
      | nil => simpa [hier_tls] using hrest
      | cons j' tl' =>
        intro hd hhd
        rw [hier_tls_tokens_head j' tl' rest hd hhd]
        exact header_tokens_ne_brace j'
    have htb : takeBraces (List.replicate (j.depth + 1 - head_depth tl) ["\x7d"] ++
        ((hier_tls tl).map (fun p => p.2) ++ rest)) =
        (j.depth + 1 - head_depth tl, (hier_tls tl).map (fun p => p.2) ++ rest) :=
      takeBraces_replicate _ _ hhead_tail
    have hnext' : tl = [] ∨ ∃ j' tl', tl = j' :: tl' ∧ 1 ≤ j'.depth ∧
        j'.depth ≤ j.depth + 1 := by
      cases tl with
      | nil => exact Or.inl rfl
      | cons j' tl' =>
        simp only [Bool.and_eq_true, decide_eq_true_eq] at hnext
        exact Or.inr ⟨j', tl', rfl, hnext.1, hnext.2⟩
    have hrec : tl ≠ [] →
        parseBones f (head_depth tl) ((hier_tls tl).map (fun p => p.2) ++ rest) =
          some (tl, rest) := by
      intro hne
      refine parseBones_round tl f rest hne hchtl
        (fun x hx => hroot x (by simp [hx])) (by simp at hlen; omega) hrest
    have hshape : (hier_tls (j :: tl)).map (fun p => p.2) ++ rest =
        header_tokens j :: ["\x7b"] ::
          ["OFFSET", j.offset.1, j.offset.2.1, j.offset.2.2] ::
          ((if j.is_end_site = true then []
            else [["CHANNELS", natRepr j.channels.length] ++ j.channels]) ++
           (List.replicate (j.depth + 1 - head_depth tl) ["\x7d"] ++
            ((hier_tls tl).map (fun p => p.2) ++ rest))) := by
      rw [hier_tls, bone_tls, List.map_append, List.map_append, joint_own_tls_tokens,
        close_tls_tokens]
      simp [List.append_assoc]
    rw [show head_depth (j :: tl) = j.depth from rfl, hshape]
    cases hes : j.is_end_site with
    | true =>
      obtain ⟨hn, hc⟩ := hesName hes
      rw [hes] at hhd
      have hjrec : (⟨"", j.depth,
          (j.offset.1, j.offset.2.1, j.offset.2.2), [], true⟩ : Joint) = j := by
        rcases j with ⟨nm, dep, off, chans, es'⟩
        simp only at hn hc hes
        subst hn hc hes
        rfl
      simp only [hes, eq_self_iff_true, if_true, List.nil_append]
      rw [parseBones]
      simp only [hhd]
      rw [show ((["\x7b"] : List String) == ["\x7b"]) = true from rfl]
      simp only [if_true, parse_channels_end, List.nil_append, htb]
      exact parseBones_tail f j _ hjrec tl rest hnext' hrec
    | false =>
      rw [hes] at hhd
      have hjrec : (⟨j.name, j.depth,
          (j.offset.1, j.offset.2.1, j.offset.2.2), j.channels, false⟩ : Joint) = j := by
        rcases j with ⟨nm, dep, off, chans, es'⟩
        simp only at hes
        subst hes
        rfl
      simp only [hes, Bool.false_eq_true, if_false, List.cons_append, List.nil_append]
      rw [parseBones]
      simp only [hhd]
      rw [show ((["\x7b"] : List String) == ["\x7b"]) = true from rfl]
      simp only [if_true]
      rw [parse_channels_chan]
      simp only [List.nil_append, htb]
      exact parseBones_tail f j _ hjrec tl rest hnext' hrec

/-! ## The full round trip (claim C2) -/

theorem chain_ok_rest_pos : ∀ (j : Joint) (js : List Joint), chain_ok (j :: js) = true →
    ∀ x ∈ js, 1 ≤ x.depth
  | _, [], _, x, hx => by simp at hx
  | j, j' :: tl, hch, x, hx => by
    simp only [chain_ok, Bool.and_eq_true, decide_eq_true_eq] at hch
    obtain ⟨⟨-, h1, -⟩, hrest⟩ := hch
    rcases List.mem_cons.mp hx with rfl | hx
    · exact h1
    · refine chain_ok_rest_pos j' tl ?_ x hx
      simp only [chain_ok, Bool.and_eq_true, decide_eq_true_eq]
      exact hrest

theorem hier_tls_len_ge : ∀ js : List Joint, js.length ≤ (hier_tls js).length
  | [] => by simp [hier_tls]
  | j :: tl => by
    rw [hier_tls, List.length_append, List.length_cons]
    have h1 : 1 ≤ (bone_tls j tl).length := by
      rw [bone_tls, joint_own_tls]
      simp
    have h2 := hier_tls_len_ge tl
    omega

theorem parse_eq_body (s : String) (hline : List String) (rest : List (List String))
    (h : (splitLinesAux s.data []).map words = hline :: rest)
    (hh : hline = ["HIERARCHY"]) : parse s = parse_body rest := by
  rw [parse, h, hh]
  rfl

theorem parse_motion_spec (js : List Joint) (cnt ft : String) (frames : List (List String)) :
    parse_motion js (["MOTION"] :: ["Frames:", cnt] :: ["Frame", "Time:", ft] :: frames) =
      some ⟨js, ft, frames, frames.length⟩ := rfl

/-- C2: for every valid Skeleton+Motion model and every combination of
IndentStyle and LineTerminator, parsing the text returned by
`write_to_string` with the paired parser yields exactly the original model
(lossless round trip, numeric tokens preserved verbatim). -/
theorem claim_C2 (opts : WriteOptions) (b : Bvh) (hb : b.valid = true) :
    parse (opts.write_to_string b) = some b := by
  obtain ⟨hne, hhead, hch, -, -, hfc⟩ := valid_parts b hb
  rcases hjs : b.joints with _ | ⟨j0, jr⟩
  · exact absurd hjs hne
  have hd0 : j0.depth = 0 ∧ j0.is_end_site = false := hhead j0 (by rw [hjs]; rfl)
  have hch' : chain_ok (j0 :: jr) = true := by rw [← hjs]; exact hch
  have htok : (splitLinesAux (opts.write_to_string b).data []).map words =
      ["HIERARCHY"] :: (((hier_tls (j0 :: jr)).map (fun p => p.2)) ++
        (["MOTION"] :: ["Frames:", natRepr b.frame_count] ::
         ["Frame", "Time:", b.frame_time] :: b.frames)) := by
    rw [doc_token_lines opts b hb]
    unfold all_tls hier_tls_all
    rw [hjs]
    simp [motion_tls, List.map_append, List.map_map]
  rw [parse_eq_body _ _ _ htok rfl, parse_body]
  have hroot' : ∀ j ∈ j0 :: jr, j.depth = 0 → j.is_end_site = false := by
    intro x hx h0
    rcases List.mem_cons.mp hx with rfl | hx
    · exact hd0.2
    · have := chain_ok_rest_pos j0 jr hch' x hx
      omega
  have hlen' : (j0 :: jr).length ≤
      ((hier_tls (j0 :: jr)).map (fun p => p.2) ++
        (["MOTION"] :: ["Frames:", natRepr b.frame_count] ::
         ["Frame", "Time:", b.frame_time] :: b.frames)).length := by
    rw [List.length_append, List.length_map]
    have := hier_tls_len_ge (j0 :: jr)
    omega
  have hmot : ∀ hd, ((["MOTION"] :: ["Frames:", natRepr b.frame_count] ::
      ["Frame", "Time:", b.frame_time] :: b.frames) :
        List (List String)).head? = some hd → hd ≠ ["\x7d"] := by
    intro hd hhd
    simp at hhd
    subst hhd
    simp
  have hround := parseBones_round (j0 :: jr) _ _ (by simp) hch' hroot' hlen' hmot
  rw [show head_depth (j0 :: jr) = 0 from by rw [show head_depth (j0 :: jr) = j0.depth from rfl, hd0.1]]
    at hround
  rw [hround]
  show parse_motion (j0 :: jr) (["MOTION"] :: ["Frames:", natRepr b.frame_count] ::
    ["Frame", "Time:", b.frame_time] :: b.frames) = some b
  rw [parse_motion_spec]
  rw [← hjs, ← hfc]

/-- Witness for C2 at the concrete single-joint model with Tabs + Unix. -/
theorem claim_C2_witness :
    hipsBvh.valid = true ∧ parse (hipsOpts.write_to_string hipsBvh) = some hipsBvh :=
  ⟨by decide, claim_C2 hipsOpts hipsBvh (by decide)⟩

/-! ## Bracket balance (claim C3) -/

theorem countP_congr_mem (p q : Nat × List String → Bool) :
    ∀ l : List (Nat × List String), (∀ a ∈ l, p a = q a) → l.countP p = l.countP q
  | [], _ => rfl
  | a :: t, h => by
    simp [List.countP_cons, h a (by simp),
      countP_congr_mem p q t (fun x hx => h x (by simp [hx]))]

theorem run_bal_append : ∀ (X Y : List (Nat × List String)) (bal : Nat),
    run_bal bal (X ++ Y) = (run_bal bal X).bind (fun b2 => run_bal b2 Y)
  | [], Y, bal => by simp [run_bal]
  | p :: X, Y, bal => by
    rw [List.cons_append]
    simp only [run_bal]
    by_cases hc : p.2 = ["\x7d"]
    · rw [if_pos hc, if_pos hc]
      cases bal with
      | zero => simp
      | succ b => exact run_bal_append X Y b
    · rw [if_neg hc, if_neg hc]
      exact run_bal_append X Y _

theorem run_bal_no_brace : ∀ (l : List (Nat × List String)) (bal : Nat),
    (∀ p ∈ l, p.2 ≠ ["\x7b"] ∧ p.2 ≠ ["\x7d"]) → run_bal bal l = some bal
  | [], bal, _ => rfl
  | p :: l, bal, h => by
    obtain ⟨ho, hc⟩ := h p (by simp)
    simp only [run_bal]
    rw [if_neg hc, if_neg ho]
    simpa using run_bal_no_brace l bal (fun x hx => h x (by simp [hx]))

theorem run_bal_closes : ∀ (l : List (Nat × List String)) (bal : Nat),
    (∀ p ∈ l, p.2 = ["\x7d"]) → l.length ≤ bal → run_bal bal l = some (bal - l.length)
  | [], bal, _, _ => by simp [run_bal]
  | p :: l, bal, h, hlen => by
    simp only [run_bal]
    rw [if_pos (h p (by simp))]
    cases bal with
    | zero => simp at hlen
    | succ b =>
      have hrec := run_bal_closes l b (fun x hx => h x (by simp [hx])) (by simp at hlen; omega)
      show run_bal b l = some (b + 1 - (p :: l).length)
      rw [hrec]
      congr 1
      simp

theorem header_tokens_ne_open (j : Joint) : header_tokens j ≠ ["\x7b"] := by
  rw [header_tokens]
  split
  · simp
  · split <;> simp

theorem run_bal_own (bal : Nat) (j : Joint) :
    run_bal bal (joint_own_tls j) = some (bal + 1) := by
  have hshape : joint_own_tls j =
      [(j.depth, header_tokens j)] ++ ([(j.depth, ["\x7b"])] ++
        ((j.depth + 1, ["OFFSET", j.offset.1, j.offset.2.1, j.offset.2.2]) ::
          (if j.is_end_site then []
           else [(j.depth + 1, ["CHANNELS", natRepr j.channels.length] ++ j.channels)]))) := by
    rw [joint_own_tls]
    simp
  rw [hshape, run_bal_append]
  rw [run_bal_no_brace [(j.depth, header_tokens j)] bal (by
    intro p hp
    simp only [List.mem_cons, List.not_mem_nil, or_false] at hp
    subst hp
    exact ⟨header_tokens_ne_open j, header_tokens_ne_brace j⟩)]
  rw [Option.some_bind, run_bal_append]
  rw [show run_bal bal [(j.depth, ["\x7b"])] = some (bal + 1) from by simp [run_bal]]
  rw [Option.some_bind]
  apply run_bal_no_brace
  intro p hp
  rcases List.mem_cons.mp hp with rfl | hp
  · constructor <;> simp
  · cases hes : j.is_end_site with
    | true =>
      rw [if_pos (by simp [hes])] at hp
      simp at hp
    | false =>
      rw [if_neg (by simp [hes])] at hp
      simp only [List.mem_cons, List.not_mem_nil, or_false] at hp
      subst hp
      constructor
      · intro h
        have h2 : ("CHANNELS" :: natRepr j.channels.length :: j.channels) = ["\x7b"] := by
          simpa using h
        injection h2 with h3 h4
        exact List.noConfusion h4
      · intro h
        have h2 : ("CHANNELS" :: natRepr j.channels.length :: j.channels) = ["\x7d"] := by
          simpa using h
        injection h2 with h3 h4
        exact List.noConfusion h4

theorem close_tls_all_braces (dcurr dnext : Nat) :
    ∀ p ∈ close_tls dcurr dnext, p.2 = ["\x7d"] := by
  intro p hp
  rw [close_tls] at hp
  obtain ⟨k, -, hk⟩ := List.mem_map.mp hp
  rw [← hk]

theorem close_tls_length (dcurr dnext : Nat) :
    (close_tls dcurr dnext).length = dcurr + 1 - dnext := by
  simp [close_tls]

theorem run_bal_chain : ∀ js : List Joint, chain_ok js = true →
    run_bal (head_depth js) (hier_tls js) = some 0
  | [] => fun _ => rfl
  | j :: tl => by
    intro hch
    simp only [chain_ok, Bool.and_eq_true] at hch
    obtain ⟨⟨-, hnext⟩, hchtl⟩ := hch
    have hd' : head_depth tl ≤ j.depth + 1 := by
      cases tl with
      | nil => simp [head_depth]
      | cons j2 tl2 =>
        simp only [Bool.and_eq_true, decide_eq_true_eq] at hnext
        simpa [head_depth] using hnext.2
    rw [hier_tls, bone_tls, List.append_assoc, run_bal_append]
    rw [show head_depth (j :: tl) = j.depth from rfl, run_bal_own]
    rw [Option.some_bind, run_bal_append]
    rw [run_bal_closes (close_tls j.depth (head_depth tl)) (j.depth + 1)
      (close_tls_all_braces _ _) (by rw [close_tls_length]; omega)]
    rw [Option.some_bind, close_tls_length,
      show j.depth + 1 - (j.depth + 1 - head_depth tl) = head_depth tl from by omega]
    exact run_bal_chain tl hchtl

theorem numToken_ne_braces (t : String) (h : numToken t = true) :
    t ≠ "\x7b" ∧ t ≠ "\x7d" := by
  constructor <;> rintro rfl <;> revert h <;> decide

theorem run_bal_all (b : Bvh) (hb : b.valid = true) : run_bal 0 (all_tls b) = some 0 := by
  obtain ⟨hne, hhead, hch, hft, hfr, -⟩ := valid_parts b hb
  rcases hjs : b.joints with _ | ⟨j0, jr⟩
  · exact absurd hjs hne
  rw [all_tls, run_bal_append]
  have hhier : run_bal 0 (hier_tls_all b) = some 0 := by
    rw [hier_tls_all, hjs]
    rw [show ((0, ["HIERARCHY"]) :: hier_tls (j0 :: jr) :
        List (Nat × List String)) = [(0, ["HIERARCHY"])] ++ hier_tls (j0 :: jr) from rfl]
    rw [run_bal_append]
    rw [run_bal_no_brace [(0, ["HIERARCHY"])] 0 (by
      intro p hp
      simp only [List.mem_cons, List.not_mem_nil, or_false] at hp
      subst hp
      constructor <;> simp)]
    rw [Option.some_bind]
    have hh0 : head_depth (j0 :: jr) = 0 := by
      simpa [head_depth] using (hhead j0 (by rw [hjs]; rfl)).1
    have := run_bal_chain (j0 :: jr) (by rw [← hjs]; exact hch)
    rwa [hh0] at this
  rw [hhier, Option.some_bind]
  apply run_bal_no_brace
  intro p hp
  rw [motion_tls] at hp
  rcases List.mem_cons.mp hp with h | hp
  · subst h; simp
  rcases List.mem_cons.mp hp with h | hp
  · subst h; simp
  rcases List.mem_cons.mp hp with h | hp
  · subst h; simp
  · obtain ⟨f, hf, hfp⟩ := List.mem_map.mp hp
    subst hfp
    simp only
    constructor <;> rintro rfl
    · exact absurd ((hfr ["\x7b"] hf).1 "\x7b" (by simp)) (by decide)
    · exact absurd ((hfr ["\x7d"] hf).1 "\x7d" (by simp)) (by decide)

theorem run_bal_counts : ∀ (l : List (Nat × List String)) (bal bal' : Nat),
    run_bal bal l = some bal' →
    bal + l.countP (fun p => p.2 == ["\x7b"]) = bal' + l.countP (fun p => p.2 == ["\x7d"])
  | [], bal, bal', h => by
    simp only [run_bal, Option.some.injEq] at h
    simp [h]
  | p :: l, bal, bal', h => by
    simp only [run_bal] at h
    by_cases hc : p.2 = ["\x7d"]
    · rw [if_pos hc] at h
      cases bal with
      | zero => exact Option.noConfusion h
      | succ b =>
        have := run_bal_counts l b bal' h
        simp [List.countP_cons, hc]
        omega
    · rw [if_neg hc] at h
      by_cases ho : p.2 = ["\x7b"]
      · rw [if_pos ho] at h
        have := run_bal_counts l (bal + 1) bal' h
        simp [List.countP_cons, hc, ho]
        omega
      · rw [if_neg ho] at h
        simp at h
        have := run_bal_counts l bal bal' h
        simp [List.countP_cons, hc, ho]
        omega

theorem run_bal_prefix : ∀ (l : List (Nat × List String)) (bal bal' : Nat),
    run_bal bal l = some bal' → ∀ n,
    (l.take n).countP (fun p => p.2 == ["\x7d"]) ≤
      bal + (l.take n).countP (fun p => p.2 == ["\x7b"])
  | [], bal, bal', h, n => by simp
  | p :: l, bal, bal', h, 0 => by simp
  | p :: l, bal, bal', h, n + 1 => by
    simp only [run_bal] at h
    rw [List.take_succ_cons]
    by_cases hc : p.2 = ["\x7d"]
    · rw [if_pos hc] at h
      cases bal with
      | zero => exact Option.noConfusion h
      | succ b =>
        have := run_bal_prefix l b bal' h n
        simp [List.countP_cons, hc]
        omega
    · rw [if_neg hc] at h
      by_cases ho : p.2 = ["\x7b"]
      · rw [if_pos ho] at h
        have := run_bal_prefix l (bal + 1) bal' h n
        simp [List.countP_cons, hc, ho]
        omega
      · rw [if_neg ho] at h
        simp at h
        have := run_bal_prefix l bal bal' h n
        simp [List.countP_cons, hc, ho]
        omega

theorem take_countP_open (opts : WriteOptions) (b : Bvh) (hb : b.valid = true) (n : Nat) :
    ((all_linesT opts b).take n).countP is_open_line =
      ((all_tls b).take n).countP (fun p => p.2 == ["\x7b"]) := by
  rw [show is_open_line = fun s => words s.data == ["\x7b"] from rfl]
  rw [all_linesT, ← List.map_take, List.countP_map]
  apply countP_congr_mem
  intro p hp
  have hmem : p ∈ all_tls b := List.take_subset n _ hp
  simp [Function.comp, words_renderT opts p (all_tls_good b hb p hmem)]

theorem take_countP_close (opts : WriteOptions) (b : Bvh) (hb : b.valid = true) (n : Nat) :
    ((all_linesT opts b).take n).countP is_close_line =
      ((all_tls b).take n).countP (fun p => p.2 == ["\x7d"]) := by
  rw [show is_close_line = fun s => words s.data == ["\x7d"] from rfl]
  rw [all_linesT, ← List.map_take, List.countP_map]
  apply countP_congr_mem
  intro p hp
  have hmem : p ∈ all_tls b := List.take_subset n _ hp
  simp [Function.comp, words_renderT opts p (all_tls_good b hb p hmem)]

/-- C3: for every valid model and every choice of IndentStyle and
LineTerminator, the serializer's line sequence contains as many `{` lines as
`}` lines, and in every prefix of the line sequence the `}` lines never
outnumber the `{` lines (valid nesting at all times). -/
theorem claim_C3 (opts : WriteOptions) (b : Bvh) (hb : b.valid = true) :
    (all_linesT opts b).countP is_open_line = (all_linesT opts b).countP is_close_line ∧
    ∀ n, ((all_linesT opts b).take n).countP is_close_line ≤
      ((all_linesT opts b).take n).countP is_open_line := by
  have hall := run_bal_all b hb
  constructor
  · rw [← List.take_length (all_linesT opts b)]
    rw [take_countP_open opts b hb, take_countP_close opts b hb]
    rw [show (all_linesT opts b).length = (all_tls b).length from by simp [all_linesT]]
    rw [List.take_length]
    have := run_bal_counts (all_tls b) 0 0 hall
    omega
  · intro n
    rw [take_countP_open opts b hb, take_countP_close opts b hb]
    have := run_bal_prefix (all_tls b) 0 0 hall n
    omega

/-- Witness for C3 at the concrete single-joint model (prefix length 3). -/
theorem claim_C3_witness :
    hipsBvh.valid = true ∧
    ((all_linesT hipsOpts hipsBvh).countP is_open_line =
      (all_linesT hipsOpts hipsBvh).countP is_close_line) ∧
    ((all_linesT hipsOpts hipsBvh).take 3).countP is_close_line ≤
      ((all_linesT hipsOpts hipsBvh).take 3).countP is_open_line :=
  ⟨by decide, (claim_C3 hipsOpts hipsBvh (by decide)).1,
    (claim_C3 hipsOpts hipsBvh (by decide)).2 3⟩

/-! ## Line counts (claim C4) -/

theorem joint_own_tls_length (j : Joint) :
    (joint_own_tls j).length = 3 + (if j.is_end_site then 0 else 1) := by
  cases hes : j.is_end_site <;> simp [joint_own_tls, hes]

theorem hier_tls_length : ∀ js : List Joint, chain_ok js = true →
    (hier_tls js).length =
      (js.map (fun j => 3 + (if j.is_end_site then 0 else 1))).sum +
        js.length + head_depth js
  | [] => by simp [hier_tls, head_depth]
  | j :: tl => by
    intro hch
    simp only [chain_ok, Bool.and_eq_true] at hch
    obtain ⟨⟨-, hnext⟩, hchtl⟩ := hch
    have hd' : head_depth tl ≤ j.depth + 1 := by
      cases tl with
      | nil => simp [head_depth]
      | cons j2 tl2 =>
        simp only [Bool.and_eq_true, decide_eq_true_eq] at hnext
        simpa [head_depth] using hnext.2
    rw [hier_tls, bone_tls, List.length_append, List.length_append,
      joint_own_tls_length, close_tls_length, hier_tls_length tl hchtl]
    simp only [List.map_cons, List.sum_cons, List.length_cons,
      show head_depth (j :: tl) = j.depth from rfl]
    omega

theorem sum_four_split (js : List Joint) :
    (js.map (fun j => 4 + (if j.is_end_site then 0 else 1))).sum =
      (js.map (fun j => 3 + (if j.is_end_site then 0 else 1))).sum + js.length := by
  induction js with
  | nil => simp
  | cons j tl ih => simp [ih]; omega

/-- C4 (amended): for every valid model, the hierarchy section consists of
the `HIERARCHY` line plus, per joint, one header line (`ROOT` for the root,
`JOINT` or `End Site` otherwise), one open-brace line, one `OFFSET` line,
one `CHANNELS` line unless the joint is an End Site, and one close-brace
line per block, so its total length is `1 + sum over joints of
(4 + (0 or 1))`; the motion section has exactly `3 + frame_count` lines, and
with zero frames the three `MOTION` preamble lines are still emitted with no
frame lines after them. -/
theorem claim_C4 (opts : WriteOptions) (b : Bvh) (hb : b.valid = true) :
    (hier_linesT opts b).length =
      1 + (b.joints.map (fun j => 4 + (if j.is_end_site then 0 else 1))).sum ∧
    (motion_linesT opts b).length = 3 + b.frame_count ∧
    (b.frames = [] → motion_linesT opts b =
      [renderT opts (0, ["MOTION"]), renderT opts (0, ["Frames:", natRepr b.frame_count]),
       renderT opts (0, ["Frame", "Time:", b.frame_time])]) := by
  obtain ⟨hne, hhead, hch, -, -, hfc⟩ := valid_parts b hb
  refine ⟨?_, ?_, ?_⟩
  · rcases hjs : b.joints with _ | ⟨j0, jr⟩
    · exact absurd hjs hne
    have hh0 : head_depth (j0 :: jr) = 0 := by
      simpa [head_depth] using (hhead j0 (by rw [hjs]; rfl)).1
    rw [hier_linesT, hier_tls_all, hjs]
    simp only [List.map_cons, List.length_cons, List.length_map]
    rw [hier_tls_length (j0 :: jr) (by rw [← hjs]; exact hch), hh0]
    have hsplit := sum_four_split (j0 :: jr)
    simp only [List.map_cons, List.sum_cons, List.length_cons] at hsplit ⊢
    omega
  · rw [motion_linesT, motion_tls, hfc]
    simp
    omega
  · intro hf
    rw [motion_linesT, motion_tls, hf]
    simp

/-- Witness for C4 (amended) at the two-joint zero-frame model: the motion
preamble is still produced with no frame lines. -/
theorem claim_C4_witness :
    (hier_linesT hipsOpts twoJointBvh).length =
      1 + (twoJointBvh.joints.map (fun j => 4 + (if j.is_end_site then 0 else 1))).sum ∧
    (motion_linesT hipsOpts twoJointBvh).length = 3 + twoJointBvh.frame_count ∧
    (twoJointBvh.frames = [] → motion_linesT hipsOpts twoJointBvh =
      [renderT hipsOpts (0, ["MOTION"]),
       renderT hipsOpts (0, ["Frames:", natRepr twoJointBvh.frame_count]),
       renderT hipsOpts (0, ["Frame", "Time:", twoJointBvh.frame_time])]) :=
  claim_C4 hipsOpts twoJointBvh (by decide)

/-- Counterexample to C4 as stated: for the valid two-joint model the
hierarchy section has 11 lines, but the claim's formula
`1 (HIERARCHY) + 1 (ROOT) + sum over joints of (1 open-brace + 1 offset +
(0 or 1 channels) + 1 close-brace)` yields only 10, because the `JOINT`
header line of the non-root joint is not accounted for. -/
theorem claim_C4_counterexample :
    twoJointBvh.valid = true ∧
    (hier_linesT hipsOpts twoJointBvh).length ≠
      1 + 1 + (twoJointBvh.joints.map
        (fun j => 3 + (if j.is_end_site then 0 else 1))).sum := by
  decide

/-! ## Indentation (claim C7) -/

theorem header_mem_hier : ∀ (js : List Joint), ∀ j ∈ js,
    (j.depth, header_tokens j) ∈ hier_tls js
  | [], j, hj => by simp at hj
  | j0 :: tl, j, hj => by
    rcases List.mem_cons.mp hj with rfl | hj
    · rw [hier_tls]
      apply List.mem_append_left
      rw [bone_tls]
      apply List.mem_append_left
      rw [joint_own_tls]
      simp
    · rw [hier_tls]
      exact List.mem_append_right _ (header_mem_hier tl j hj)

theorem header_mem_all (b : Bvh) (j : Joint) (hj : j ∈ b.joints) :
    (j.depth, header_tokens j) ∈ all_tls b := by
  rw [all_tls]
  apply List.mem_append_left
  unfold hier_tls_all
  cases hjs : b.joints with
  | nil => rw [hjs] at hj; simp at hj
  | cons a l =>
    exact List.mem_cons_of_mem _ (header_mem_hier (a :: l) j (hjs ▸ hj))

theorem takeWhile_ws_append (a : List Char) (ha : ∀ c ∈ a, isWS c = true) :
    ∀ cs : List Char, (a ++ cs).takeWhile isWS = a ++ cs.takeWhile isWS := by
  induction a with
  | nil => simp
  | cons c t ih =>
    intro cs
    rw [List.cons_append, List.takeWhile_cons, if_pos (ha c (by simp)), List.cons_append,
      ih (fun x hx => ha x (by simp [hx])) cs]

theorem unwords_cons_head (t : String) (ts' : List String)
    (h : ∀ x ∈ t :: ts', goodToken x = true) :
    ∃ c cs, (unwords (t :: ts')).data = c :: cs ∧ isWS c = false := by
  have htg := h t (by simp)
  have hne := goodToken_ne_nil t htg
  cases ts' with
  | nil =>
    rcases hd : t.data with _ | ⟨c, cs⟩
    · exact absurd hd hne
    · exact ⟨c, cs, by rw [show unwords [t] = t from rfl, hd],
        goodToken_chars t htg c (by rw [hd]; simp)⟩
  | cons t2 ts'' =>
    rcases hd : t.data with _ | ⟨c, cs⟩
    · exact absurd hd hne
    · refine ⟨c, cs ++ (' ' :: (unwords (t2 :: ts'')).data), ?_,
        goodToken_chars t htg c (by rw [hd]; simp)⟩
      rw [show unwords (t :: t2 :: ts'') = t ++ " " ++ unwords (t2 :: ts'') from rfl,
        String.data_append, String.data_append, hd]
      simp

theorem takeWhile_unwords (ts : List String) (h : ∀ t ∈ ts, goodToken t = true) :
    (unwords ts).data.takeWhile isWS = [] := by
  cases ts with
  | nil => rfl
  | cons t ts' =>
    obtain ⟨c, cs, heq, hc⟩ := unwords_cons_head t ts' h
    rw [heq, List.takeWhile_cons, if_neg (by simp [hc])]

theorem unwords_data_ne_nil (t : String) (ts' : List String)
    (h : ∀ x ∈ t :: ts', goodToken x = true) : (unwords (t :: ts')).data ≠ [] := by
  obtain ⟨c, cs, heq, -⟩ := unwords_cons_head t ts' h
  rw [heq]
  simp

theorem unwords_getLast : ∀ (ts : List String), ts ≠ [] →
    (∀ t ∈ ts, goodToken t = true) →
    ∃ c, (unwords ts).data.getLast? = some c ∧ isWS c = false
  | [], hne, _ => absurd rfl hne
  | [t], _, h => by
    have htg := h t (by simp)
    have hne := goodToken_ne_nil t htg
    refine ⟨t.data.getLast hne, ?_, goodToken_chars t htg _ (List.getLast_mem hne)⟩
    rw [show unwords [t] = t from rfl]
    exact List.getLast?_eq_getLast t.data hne
  | t :: t2 :: ts'', _, h => by
    obtain ⟨c, hlast, hcws⟩ := unwords_getLast (t2 :: ts'') (by simp)
      (fun x hx => h x (by simp [hx]))
    refine ⟨c, ?_, hcws⟩
    rw [show unwords (t :: t2 :: ts'') = t ++ " " ++ unwords (t2 :: ts'') from rfl,
      String.data_append]
    rw [List.getLast?_append_of_ne_nil _
      (unwords_data_ne_nil t2 ts'' (fun x hx => h x (by simp [hx])))]
    exact hlast

theorem hier_tls_tokens_ne_nil : ∀ js : List Joint, ∀ p ∈ hier_tls js, p.2 ≠ []
  | [], p, hp => by simp [hier_tls] at hp
  | j :: tl, p, hp => by
    rw [hier_tls] at hp
    rcases List.mem_append.mp hp with hp | hp
    · rw [bone_tls] at hp
      rcases List.mem_append.mp hp with hp | hp
      · rw [joint_own_tls] at hp
        rcases List.mem_append.mp hp with hp | hp
        · simp only [List.mem_cons, List.not_mem_nil, or_false] at hp
          rcases hp with rfl | rfl | rfl
          · simp only
            rw [header_tokens]
            split
            · simp
            · split <;> simp
          · simp
          · simp
        · cases hes : j.is_end_site with
          | true => rw [if_pos (by simp [hes])] at hp; simp at hp
          | false =>
            rw [if_neg (by simp [hes])] at hp
            simp only [List.mem_cons, List.not_mem_nil, or_false] at hp
            subst hp
            simp
      · have := close_tls_all_braces j.depth (head_depth tl) p hp
        rw [this]
        simp
    · exact hier_tls_tokens_ne_nil tl p hp

theorem motion_tls_flat (b : Bvh) : ∀ p ∈ motion_tls b, p.1 = 0 := by
  intro p hp
  rw [motion_tls] at hp
  rcases List.mem_cons.mp hp with rfl | hp
  · rfl
  rcases List.mem_cons.mp hp with rfl | hp
  · rfl
  rcases List.mem_cons.mp hp with rfl | hp
  · rfl
  · obtain ⟨f, -, hfp⟩ := List.mem_map.mp hp
    rw [← hfp]

theorem all_tls_shape (b : Bvh) : ∀ p ∈ all_tls b, p.2 ≠ [] ∨ p.1 = 0 := by
  intro p hp
  rw [all_tls] at hp
  rcases List.mem_append.mp hp with hp | hp
  · unfold hier_tls_all at hp
    cases hjs : b.joints with
    | nil => rw [hjs] at hp; simp at hp
    | cons a l =>
      rw [hjs] at hp
      rcases List.mem_cons.mp hp with rfl | hp
      · exact Or.inr rfl
      · exact Or.inl (hier_tls_tokens_ne_nil (a :: l) p hp)
  · exact Or.inr (motion_tls_flat b p hp)

/-- C7: every joint's header line occurs in the document at the joint's depth;
every produced line is its computed indentation (the unit repeated depth
times) followed by the space-joined tokens; the leading whitespace of a line
is exactly that indentation; no line ends in whitespace (before the
terminator); the indentation unit is nothing for `NoIndentation`, one tab for
`Tabs`, and `n` spaces for `Spaces n`; and each produced line is the content
followed by the configured terminator. -/
theorem claim_C7 (opts : WriteOptions) (b : Bvh) (hb : b.valid = true) :
    (IndentStyle.NoIndentation.indent_chars = [] ∧
     IndentStyle.Tabs.indent_chars = ['\t'] ∧
     ∀ p : {n : Nat // 0 < n},
       (IndentStyle.Spaces p).indent_chars = List.replicate p.val ' ') ∧
    (∀ j ∈ b.joints, (j.depth, header_tokens j) ∈ all_tls b) ∧
    (∀ p ∈ all_tls b,
      renderT opts p = mkLine opts.indent p ++ opts.line_terminator.as_str ∧
      (mkLine opts.indent p).data =
        (List.replicate p.1 opts.indent.indent_chars).flatten ++ (unwords p.2).data ∧
      (mkLine opts.indent p).data.takeWhile isWS =
        (List.replicate p.1 opts.indent.indent_chars).flatten ∧
      ∀ c, (mkLine opts.indent p).data.getLast? = some c → isWS c = false) := by
  refine ⟨⟨rfl, rfl, fun p => rfl⟩, fun j hj => header_mem_all b j hj, fun p hp => ?_⟩
  have hgood : ∀ t ∈ p.2, goodToken t = true := all_tls_good b hb p hp
  have hdata : (mkLine opts.indent p).data =
      (List.replicate p.1 opts.indent.indent_chars).flatten ++ (unwords p.2).data := by
    rw [mkLine, String.data_append, indentAt_data]
  refine ⟨rfl, hdata, ?_, ?_⟩
  · rw [hdata, takeWhile_ws_append _ (fun c hc => by
      rw [← indentAt_data] at hc
      exact indentAt_ws opts.indent p.1 c hc)]
    rw [takeWhile_unwords p.2 hgood, List.append_nil]
  · intro c hc
    rcases hts : p.2 with _ | ⟨t, ts'⟩
    · rcases all_tls_shape b p hp with hne | hflat
      · exact absurd hts hne
      · rw [hdata, hts, hflat] at hc
        simp [unwords] at hc
    · obtain ⟨c', hlast, hws⟩ := unwords_getLast p.2 (by rw [hts]; simp) hgood
      rw [hdata, List.getLast?_append_of_ne_nil _ (by
        rw [hts]
        exact unwords_data_ne_nil t ts' (hts ▸ hgood))] at hc
      rw [hlast] at hc
      injection hc with hc
      rw [← hc]
      exact hws

/-- Witness for C7 at the concrete single-joint model. -/
theorem claim_C7_witness :
    hipsBvh.valid = true ∧
    ((IndentStyle.NoIndentation.indent_chars = [] ∧
      IndentStyle.Tabs.indent_chars = ['\t'] ∧
      ∀ p : {n : Nat // 0 < n},
        (IndentStyle.Spaces p).indent_chars = List.replicate p.val ' ') ∧
     (∀ j ∈ hipsBvh.joints, (j.depth, header_tokens j) ∈ all_tls hipsBvh) ∧
     (∀ p ∈ all_tls hipsBvh,
       renderT hipsOpts p = mkLine hipsOpts.indent p ++ hipsOpts.line_terminator.as_str ∧
       (mkLine hipsOpts.indent p).data =
         (List.replicate p.1 hipsOpts.indent.indent_chars).flatten ++ (unwords p.2).data ∧
       (mkLine hipsOpts.indent p).data.takeWhile isWS =
         (List.replicate p.1 hipsOpts.indent.indent_chars).flatten ∧
       ∀ c, (mkLine hipsOpts.indent p).data.getLast? = some c → isWS c = false)) :=
  ⟨by decide, claim_C7 hipsOpts hipsBvh (by decide)⟩

/-! ## The sink driver (claims C6 and C10) -/

theorem writeAux_step_done (opts : WriteOptions) (b : Bvh) (sink : Sink)
    (fuel : Nat) (st : WriteOptionsIterState) (idx w s : Nat) (calls : List (List Char))
    (hnl : next_line opts b st = (false, "", st)) :
    writeAux opts b sink (fuel + 1) st idx w s calls = ⟨sink.flush_ok, calls, 1⟩ := by
  rw [writeAux, hnl]

theorem writeAux_step_none (opts : WriteOptions) (b : Bvh) (sink : Sink)
    (fuel : Nat) (st st' : WriteOptionsIterState) (idx w s : Nat)
    (calls : List (List Char)) (l : String)
    (hnl : next_line opts b st = (true, l, st'))
    (hw : sink.write_ret idx l.data = none) :
    writeAux opts b sink (fuel + 1) st idx w s calls = ⟨false, calls ++ [l.data], 0⟩ := by
  rw [writeAux, hnl]
  show (match sink.write_ret idx l.data with
    | none => ({ ok := false, calls := calls ++ [l.data], flushes := 0 } : WriteResult)
    | some n =>
      if w + n = s + l.data.length then
        writeAux opts b sink fuel st' (idx + 1) (w + n) (s + l.data.length)
          (calls ++ [l.data])
      else { ok := false, calls := calls ++ [l.data], flushes := 0 }) =
    ({ ok := false, calls := calls ++ [l.data], flushes := 0 } : WriteResult)
  rw [hw]

theorem writeAux_step_some (opts : WriteOptions) (b : Bvh) (sink : Sink)
    (fuel : Nat) (st st' : WriteOptionsIterState) (idx w s n : Nat)
    (calls : List (List Char)) (l : String)
    (hnl : next_line opts b st = (true, l, st'))
    (hw : sink.write_ret idx l.data = some n) :
    writeAux opts b sink (fuel + 1) st idx w s calls =
      if w + n = s + l.data.length then
        writeAux opts b sink fuel st' (idx + 1) (w + n) (s + l.data.length)
          (calls ++ [l.data])
      else ⟨false, calls ++ [l.data], 0⟩ := by
  rw [writeAux, hnl]
  show (match sink.write_ret idx l.data with
    | none => ({ ok := false, calls := calls ++ [l.data], flushes := 0 } : WriteResult)
    | some n =>
      if w + n = s + l.data.length then
        writeAux opts b sink fuel st' (idx + 1) (w + n) (s + l.data.length)
          (calls ++ [l.data])
      else { ok := false, calls := calls ++ [l.data], flushes := 0 }) = _
  rw [hw]

theorem writeAux_spec (opts : WriteOptions) (b : Bvh) (sink : Sink) :
    ∀ (fuel : Nat) (st : WriteOptionsIterState) (idx w s : Nat) (calls : List (List Char)),
      okState opts b st → (rem opts b st).length < fuel → w = s →
      (allFull sink idx (rem opts b st) = true →
        writeAux opts b sink fuel st idx w s calls =
          ⟨sink.flush_ok, calls ++ (rem opts b st).map String.data, 1⟩) ∧
      (allFull sink idx (rem opts b st) = false →
        (writeAux opts b sink fuel st idx w s calls).ok = false)
  | 0, st, idx, w, s, calls, hok, hlen, hws => by omega
  | fuel + 1, st, idx, w, s, calls, hok, hlen, hws => by
    rcases hrem : rem opts b st with _ | ⟨l, ls⟩
    · constructor
      · intro _
        rw [writeAux_step_done opts b sink fuel st idx w s calls
          (next_line_done opts b st hok hrem)]
        simp
      · intro hfull
        rw [allFull] at hfull
        exact Bool.noConfusion hfull
    · obtain ⟨st', hnl, hok', hrem'⟩ := next_line_step opts b st hok l ls hrem
      have hlen' : (rem opts b st').length < fuel := by
        rw [hrem']
        rw [hrem] at hlen
        simp at hlen
        omega
      rcases hw : sink.write_ret idx l.data with _ | n
      · rw [writeAux_step_none opts b sink fuel st st' idx w s calls l hnl hw]
        constructor
        · intro hfull
          rw [allFull, hw] at hfull
          simp at hfull
        · intro _
          rfl
      · rw [writeAux_step_some opts b sink fuel st st' idx w s n calls l hnl hw]
        by_cases hn : n = l.data.length
        · subst hn
          rw [if_pos (by omega)]
          have hrec := writeAux_spec opts b sink fuel st' (idx + 1) (w + l.data.length)
            (s + l.data.length) (calls ++ [l.data]) hok' hlen' (by omega)
          rw [hrem'] at hrec
          constructor
          · intro hfull
            rw [allFull, hw] at hfull
            simp only [beq_self_eq_true, Bool.true_and] at hfull
            rw [hrec.1 hfull]
            simp
          · intro hfull
            rw [allFull, hw] at hfull
            simp only [beq_self_eq_true, Bool.true_and] at hfull
            exact hrec.2 hfull
        · rw [if_neg (by omega)]
          constructor
          · intro hfull
            rw [allFull, hw] at hfull
            simp at hfull
            exact absurd hfull.1 hn
          · intro _
            rfl

theorem allFull_true_iff (sink : Sink) : ∀ (ls : List String) (idx : Nat),
    allFull sink idx ls = true ↔
      ∀ k (h : k < ls.length),
        sink.write_ret (idx + k) ((ls.get ⟨k, h⟩).data) =
          some ((ls.get ⟨k, h⟩).data.length)
  | [], idx => by
    rw [allFull]
    simp
  | l :: ls, idx => by
    rw [allFull, Bool.and_eq_true, beq_iff_eq, allFull_true_iff sink ls (idx + 1)]
    constructor
    · rintro ⟨h0, hrest⟩ k hk
      cases k with
      | zero => simpa using h0
      | succ k2 =>
        have := hrest k2 (by simpa using hk)
        simpa [Nat.add_assoc, Nat.add_comm 1 k2] using this
    · intro hall
      refine ⟨by simpa using hall 0 (by simp), fun k2 hk2 => ?_⟩
      have := hall (k2 + 1) (by simpa using hk2)
      simpa [Nat.add_assoc, Nat.add_comm 1 k2] using this

/-- C6: `write` returns an error exactly when a sink write call fails, a sink
write accepts fewer bytes than the produced line contains (a short write,
surfaced immediately as fatal and never retried by resuming mid-line), or the
final flush fails; otherwise it has passed each produced line's bytes to the
sink in order and performed exactly one flush at the end. -/
theorem claim_C6 (opts : WriteOptions) (b : Bvh) (sink : Sink)
    (hcontract : ∀ i bs n, sink.write_ret i bs = some n → n ≤ bs.length) :
    ((opts.write b sink).ok = false ↔
      sink.flush_ok = false ∨
      ∃ k, ∃ h : k < (all_linesT opts b).length,
        (sink.write_ret k (((all_linesT opts b).get ⟨k, h⟩).data) = none ∨
         ∃ n, sink.write_ret k (((all_linesT opts b).get ⟨k, h⟩).data) = some n ∧
           n < ((all_linesT opts b).get ⟨k, h⟩).data.length)) ∧
    ((opts.write b sink).ok = true →
      (opts.write b sink).calls = (all_linesT opts b).map String.data ∧
      (opts.write b sink).flushes = 1) := by
  have hspec := writeAux_spec opts b sink ((all_linesT opts b).length + 1)
    (.WriteBones 0 0) 0 0 0 [] (okState_init opts b)
    (by rw [rem_init]; omega) rfl
  rw [rem_init] at hspec
  have hiff : allFull sink 0 (all_linesT opts b) = false ↔
      ∃ k, ∃ h : k < (all_linesT opts b).length,
        (sink.write_ret k (((all_linesT opts b).get ⟨k, h⟩).data) = none ∨
         ∃ n, sink.write_ret k (((all_linesT opts b).get ⟨k, h⟩).data) = some n ∧
           n < ((all_linesT opts b).get ⟨k, h⟩).data.length) := by
    rw [← Bool.not_eq_true, allFull_true_iff sink (all_linesT opts b) 0]
    constructor
    · intro hnot
      rcases not_forall.mp hnot with ⟨k, hk⟩
      rcases not_forall.mp hk with ⟨h, hkk⟩
      rw [Nat.zero_add] at hkk
      refine ⟨k, h, ?_⟩
      rcases hw : sink.write_ret k (((all_linesT opts b).get ⟨k, h⟩).data) with _ | n
      · exact Or.inl rfl
      · right
        refine ⟨n, rfl, ?_⟩
        have hle := hcontract _ _ _ hw
        have hne : n ≠ ((all_linesT opts b).get ⟨k, h⟩).data.length := by
          intro heq
          rw [heq] at hw
          exact hkk hw
        omega
    · rintro ⟨k, h, hbad⟩ hall
      have hthis := hall k h
      rw [Nat.zero_add] at hthis
      rcases hbad with hnone | ⟨n, hsome, hlt⟩
      · rw [hnone] at hthis
        exact Option.noConfusion hthis
      · rw [hsome] at hthis
        injection hthis with hthis
        omega
  constructor
  · unfold WriteOptions.write
    cases hfull : allFull sink 0 (all_linesT opts b) with
    | true =>
      rw [hspec.1 hfull]
      constructor
      · intro hko
        exact Or.inl hko
      · intro hor
        rcases hor with hf | hbad
        · exact hf
        · rw [← hiff] at hbad
          rw [hfull] at hbad
          exact Bool.noConfusion hbad
    | false =>
      have hko := hspec.2 hfull
      constructor
      · intro _
        exact Or.inr (hiff.mp hfull)
      · intro _
        exact hko
  · intro hok2
    unfold WriteOptions.write at hok2 ⊢
    cases hfull : allFull sink 0 (all_linesT opts b) with
    | true =>
      rw [hspec.1 hfull]
      simp
    | false =>
      have hko := hspec.2 hfull
      rw [hko] at hok2
      exact Bool.noConfusion hok2

/-- Witness for C6 at the concrete model with the always-accepting sink. -/
theorem claim_C6_witness :
    (((hipsOpts.write hipsBvh fullSink).ok = false ↔
      fullSink.flush_ok = false ∨
      ∃ k, ∃ h : k < (all_linesT hipsOpts hipsBvh).length,
        (fullSink.write_ret k (((all_linesT hipsOpts hipsBvh).get ⟨k, h⟩).data) = none ∨
         ∃ n, fullSink.write_ret k
             (((all_linesT hipsOpts hipsBvh).get ⟨k, h⟩).data) = some n ∧
           n < ((all_linesT hipsOpts hipsBvh).get ⟨k, h⟩).data.length)) ∧
    ((hipsOpts.write hipsBvh fullSink).ok = true →
      (hipsOpts.write hipsBvh fullSink).calls =
        (all_linesT hipsOpts hipsBvh).map String.data ∧
      (hipsOpts.write hipsBvh fullSink).flushes = 1)) :=
  claim_C6 hipsOpts hipsBvh fullSink
    (fun i bs n h => by
      simp only [fullSink] at h
      injection h with h
      omega)

theorem allFull_of_full (sink : Sink) (hfull : ∀ i bs, sink.write_ret i bs = some bs.length) :
    ∀ (ls : List String) (idx : Nat), allFull sink idx ls = true
  | [], idx => rfl
  | l :: ls, idx => by
    rw [allFull, hfull idx l.data]
    simp [allFull_of_full sink hfull ls (idx + 1)]

/-- C10: when the sink accepts every byte of every call and the flush
succeeds, the concatenation of the byte payloads passed to the sink by
`write` equals, byte for byte, the string returned by `write_to_string`: the
streaming driver and the string-accumulating driver produce the same
document. -/
theorem claim_C10 (opts : WriteOptions) (b : Bvh) (sink : Sink)
    (hfull : ∀ i bs, sink.write_ret i bs = some bs.length)
    (_hflush : sink.flush_ok = true) :
    ((opts.write b sink).calls).flatten = (opts.write_to_string b).data := by
  have hspec := writeAux_spec opts b sink ((all_linesT opts b).length + 1)
    (.WriteBones 0 0) 0 0 0 [] (okState_init opts b)
    (by rw [rem_init]; omega) rfl
  rw [rem_init] at hspec
  unfold WriteOptions.write
  rw [hspec.1 (allFull_of_full sink hfull (all_linesT opts b) 0)]
  rw [write_to_string_eq, strConcat_data]
  simp

/-- Witness for C10 at the concrete model with the always-accepting sink. -/
theorem claim_C10_witness :
    ((hipsOpts.write hipsBvh fullSink).calls).flatten =
      (hipsOpts.write_to_string hipsBvh).data :=
  claim_C10 hipsOpts hipsBvh fullSink (fun _ _ => rfl) rfl

end BvhAnim
